import Mathlib

/-!
# Verification of the Learn Session Engine

A shallow embedding, in Lean 4, of the learn-mode logic of the
10x-phrase-follower repository: text normalization and answer comparison
(`src/lib/learn.service.ts`), word-bank tokenization, distractor-pool
generation and word-bank comparison (`src/lib/word-bank.service.ts`),
the word-level diff aligner (`src/components/learn/AnswerDiffView.tsx`),
and the session state machine of the learn view component.

Strings are modelled as `List Char`.  JavaScript regular-expression
operations used by the source are modelled character by character:
`\s` is the JS whitespace class, `String.prototype.trim` removes that
same class from both ends, and `replace(/X+/g, " ")` is run-collapsing
replacement.  `Math.random()`-driven shuffles take an explicit tape of
natural numbers (`tape i` is the draw used at loop index `i`), so every
theorem about a shuffled result is quantified over all tapes.
-/

/-- The character class `[​-‍﻿­]` of the source's
invisible-character replacement. -/
def isInvisibleChar (c : Char) : Bool :=
  (0x200B ≤ c.toNat && c.toNat ≤ 0x200D) || c.toNat == 0xFEFF || c.toNat == 0xAD

/-- The character class `[*_]` of the source's emphasis-marker replacement
(code points 0x2A `*` and 0x5F `_`). -/
def isEmphChar (c : Char) : Bool :=
  c.toNat == 0x2A || c.toNat == 0x5F

/-- The JavaScript `\s` character class (also the set removed by
`String.prototype.trim`): space, tab, line terminators, NBSP, Ogham space
mark, the U+2000–U+200A spaces, line/paragraph separator, narrow NBSP,
medium mathematical space, ideographic space, and the BOM. -/
def isJsWhitespace (c : Char) : Bool :=
  let n := c.toNat
  n == 0x20 || (0x9 ≤ n && n ≤ 0xD) || n == 0xA0 || n == 0x1680 ||
  (0x2000 ≤ n && n ≤ 0x200A) || n == 0x2028 || n == 0x2029 ||
  n == 0x202F || n == 0x205F || n == 0x3000 || n == 0xFEFF

/-- The character class `[.?!…]` of the source's trailing-punctuation strip
(code points 0x2E `.`, 0x3F `?`, 0x21 `!`, 0x2026 `…`). -/
def isTrailPunct (c : Char) : Bool :=
  c.toNat == 0x2E || c.toNat == 0x3F || c.toNat == 0x21 || c.toNat == 0x2026

/-- Character-level model of `String.prototype.toLowerCase`.  Only the
Basic Latin range is mapped (A–Z to a–z); all other characters are left
unchanged.  Every property proved below uses only facts that also hold of
the full Unicode mapping: lowercasing is idempotent and never produces
whitespace, emphasis markers, invisible characters, or sentence
punctuation. -/
def jsToLower (c : Char) : Char :=
  if c.toNat ≥ 65 && c.toNat ≤ 90 then Char.ofNat (c.toNat + 32) else c

/-- Model of `replace(/X+/g, " ")`: every maximal run of characters
satisfying `p` is replaced by a single space.  `inRun` records whether the
previous character belonged to a run. -/
def replaceRunsAux (p : Char → Bool) : Bool → List Char → List Char
  | _, [] => []
  | inRun, c :: cs =>
    if p c then
      if inRun then replaceRunsAux p true cs
      else ' ' :: replaceRunsAux p true cs
    else c :: replaceRunsAux p false cs

/-- `replace(/X+/g, " ")` starting outside a run. -/
def replaceRuns (p : Char → Bool) (s : List Char) : List Char :=
  replaceRunsAux p false s

/-- Remove leading JS whitespace (half of `String.prototype.trim`). -/
def trimLeft (s : List Char) : List Char :=
  s.dropWhile isJsWhitespace

/-- Remove trailing JS whitespace (the other half of `trim`). -/
def trimRight (s : List Char) : List Char :=
  (s.reverse.dropWhile isJsWhitespace).reverse

/-- Model of `String.prototype.trim`. -/
def jsTrim (s : List Char) : List Char :=
  trimRight (trimLeft s)

/-- Model of `replace(/[.?!…]+$/, "")`: drop the maximal trailing run of
sentence punctuation. -/
def stripTrailingPunct (s : List Char) : List Char :=
  (s.reverse.dropWhile isTrailPunct).reverse

/-- `normalizeAnswerText` from `src/lib/learn.service.ts`: replace
invisible characters with spaces, replace runs of emphasis markers with a
space, trim, collapse whitespace runs to single spaces, lowercase, strip
trailing sentence punctuation, and trim again. -/
def normalizeAnswerText (text : List Char) : List Char :=
  jsTrim (stripTrailingPunct
    ((replaceRuns isJsWhitespace
      (jsTrim (replaceRuns isEmphChar
        (text.map fun c => if isInvisibleChar c then ' ' else c)))).map jsToLower))

/-- Accumulator worker for `splitWs`; `acc` holds the reversed characters
of the word currently being read. -/
def splitWsAux : List Char → List Char → List (List Char)
  | acc, [] => if acc.isEmpty then [] else [acc.reverse]
  | acc, c :: cs =>
    if isJsWhitespace c then
      if acc.isEmpty then splitWsAux [] cs
      else acc.reverse :: splitWsAux [] cs
    else splitWsAux (c :: acc) cs

/-- Model of `split(/\s+/)` followed by `.filter((w) => w.length > 0)`:
the maximal whitespace-free fragments of a string, in order. -/
def splitWs (s : List Char) : List (List Char) :=
  splitWsAux [] s

/-- The result record of both comparison functions:
`{ isCorrect, normalizedUser, normalizedCorrect }`. -/
structure CompareResult where
  isCorrect : Bool
  normalizedUser : List Char
  normalizedCorrect : List Char
deriving Repr, DecidableEq

/-- `compareAnswers` from `src/lib/learn.service.ts`.  In contains mode the
answer is correct iff some whitespace-separated word of the normalized user
answer equals some word of the normalized correct answer; in exact mode iff
the normalized strings are equal. -/
def compareAnswers (userAnswer correctAnswer : List Char)
    (useContainsMode : Bool) : CompareResult :=
  let normalizedUser := normalizeAnswerText userAnswer
  let normalizedCorrect := normalizeAnswerText correctAnswer
  let isCorrect :=
    if useContainsMode then
      (splitWs normalizedUser).any fun userWord =>
        (splitWs normalizedCorrect).any fun correctWord => userWord == correctWord
    else normalizedUser == normalizedCorrect
  ⟨isCorrect, normalizedUser, normalizedCorrect⟩

/-- `selectedTokens.join(" ")`. -/
def joinSpace (tokens : List (List Char)) : List Char :=
  (List.intersperse [' '] tokens).flatten

/-- `compareWordBankAnswer` from `src/lib/word-bank.service.ts`: join the
selected tokens with single spaces, normalize both sides, and compare for
equality (word-bank comparison is always exact). -/
def compareWordBankAnswer (selectedTokens : List (List Char))
    (correctAnswer : List Char) : CompareResult :=
  let userAnswer := joinSpace selectedTokens
  let normalizedUser := normalizeAnswerText userAnswer
  let normalizedCorrect := normalizeAnswerText correctAnswer
  ⟨normalizedUser == normalizedCorrect, normalizedUser, normalizedCorrect⟩

example : normalizeAnswerText "  Dog.  ".toList = "dog".toList := by decide
example : normalizeAnswerText "? !".toList = "?".toList := by decide
example : normalizeAnswerText "?".toList = [] := by decide
example : (compareAnswers "sińce".toList "siniak stłuczenie sińce".toList true).isCorrect = true := by
  decide
example : (compareAnswers "sińce".toList "siniak stłuczenie sińce".toList false).isCorrect = false := by
  decide
example : normalizeAnswerText "**Affair**".toList = "affair".toList := by decide

/-- `tokenizePhrase` from `src/lib/word-bank.service.ts`: invisible-character
replacement, emphasis-marker replacement, trim, trailing-punctuation strip
and re-trim, then split on whitespace.  (The source's contraction check
pushes the word unchanged in both branches, so it is the identity; the
empty-word skips and the final length filter are the `splitWs` behaviour.)
Tokens keep their original casing. -/
def tokenizePhrase (text : List Char) : List (List Char) :=
  splitWs (jsTrim (stripTrailingPunct (jsTrim (replaceRuns isEmphChar
    (text.map fun c => if isInvisibleChar c then ' ' else c)))))

/-- The fixed substitution table of `generateHeuristicDistractors`: the
alternatives pushed for one (lowercased) token, in source order — articles,
prepositions, copula forms, do-forms, some/any. -/
def heuristicAlts (lower : List Char) : List (List Char) :=
  (if lower = "the".toList then ["a".toList, "an".toList]
   else if lower = "a".toList then ["the".toList, "an".toList]
   else if lower = "an".toList then ["a".toList, "the".toList] else []) ++
  (if lower = "at".toList then ["in".toList, "on".toList]
   else if lower = "in".toList then ["at".toList, "on".toList]
   else if lower = "on".toList then ["in".toList, "at".toList] else []) ++
  (if lower = "is".toList then ["are".toList, "was".toList]
   else if lower = "are".toList then ["is".toList, "were".toList]
   else if lower = "was".toList then ["is".toList, "were".toList]
   else if lower = "were".toList then ["are".toList, "was".toList] else []) ++
  (if lower = "do".toList then ["does".toList, "did".toList]
   else if lower = "does".toList then ["do".toList, "did".toList]
   else if lower = "did".toList then ["do".toList, "does".toList] else []) ++
  (if lower = "some".toList then ["any".toList]
   else if lower = "any".toList then ["some".toList] else [])

/-- The token loop of `generateHeuristicDistractors`; `seen` is the set of
lowercased tokens already processed. -/
def genHeurAux : List (List Char) → List (List Char) → List (List Char)
  | _, [] => []
  | seen, t :: ts =>
    let lower := t.map jsToLower
    if seen.contains lower then genHeurAux seen ts
    else heuristicAlts lower ++ genHeurAux (lower :: seen) ts

/-- `generateHeuristicDistractors` from `src/lib/word-bank.service.ts`. -/
def generateHeuristicDistractors (correctTokens : List (List Char)) : List (List Char) :=
  (genHeurAux [] correctTokens).filter fun d => d.length > 0

/-- Learning direction (`LearnDirection`). -/
inductive LearnDirection where
  | en_to_pl
  | pl_to_en
deriving Repr, DecidableEq

/-- The slice of `LearnPhraseDTO` the learn-session logic reads: the id and
the two texts.  (The audio-availability flags only drive UI playback and are
not consulted by any function modelled here.) -/
structure LearnPhraseDTO where
  id : Nat
  en_text : List Char
  pl_text : List Char
deriving Repr, DecidableEq

/-- `extractTokensFromNotebook`: tokenize the answer-language text of every
phrase except the current one, concatenating the token lists in order. -/
def extractTokensFromNotebook (phrases : List LearnPhraseDTO)
    (excludePhraseId : Nat) (direction : LearnDirection) : List (List Char) :=
  (phrases.filter fun p => p.id ≠ excludePhraseId).flatMap fun p =>
    tokenizePhrase (match direction with
      | .en_to_pl => p.pl_text
      | .pl_to_en => p.en_text)

/-- Swap the elements at positions `i` and `j` (the destructuring swap of
the source's Fisher–Yates loops); out-of-range indices leave the list
unchanged (unreachable in the loops below). -/
def listSwap {α : Type} (l : List α) (i j : Nat) : List α :=
  match l[i]?, l[j]? with
  | some a, some b => (l.set i b).set j a
  | _, _ => l

/-- The Fisher–Yates loop body: indices `i, i-1, …, 1`, swapping position
`i` with position `tape i % (i+1)` — the model of
`j = Math.floor(Math.random() * (i + 1))` with an explicit tape. -/
def shuffleAux {α : Type} (tape : Nat → Nat) : Nat → List α → List α
  | 0, arr => arr
  | i + 1, arr => shuffleAux tape i (listSwap arr (i + 1) (tape (i + 1) % (i + 2)))

/-- `shuffleArray` of the learn view / the shuffle step of
`generateWordPool`: copy, then Fisher–Yates from the last index down. -/
def shuffleArray {α : Type} (tape : Nat → Nat) (items : List α) : List α :=
  shuffleAux tape (items.length - 1) items

/-- Stable insertion of `a` into a list sorted by `key` (before the first
element of larger-or-equal key drawn from later positions). -/
def insertByKey {α : Type} (key : α → ℚ) (a : α) : List α → List α
  | [] => [a]
  | b :: t => if key a ≤ key b then a :: b :: t else b :: insertByKey key a t

/-- Stable sort by a rational key: the model of the source's stable
`Array.prototype.sort` with comparator `diffA - diffB`. -/
def sortByKey {α : Type} (key : α → ℚ) : List α → List α
  | [] => []
  | a :: t => insertByKey key a (sortByKey key t)

/-- The distractor target of `generateWordPool`: about four total options
for one- or two-token answers, three distractors otherwise. -/
def targetDistractorCount (correctTokenCount : Nat) : Nat :=
  if correctTokenCount ≤ 2 then max (4 - correctTokenCount) 2 else 3

/-- The heuristic distractors of `generateWordPool` after removing those
already present (case-insensitively) among the correct tokens.  Every
remaining alternative is appended to the pool — this stage is not capped by
the distractor target. -/
def filteredHeuristic (correctTokens : List (List Char)) : List (List Char) :=
  (generateHeuristicDistractors correctTokens).filter fun d =>
    !((correctTokens.map fun t => t.map jsToLower).contains (d.map jsToLower))

/-- `generateWordPool` from `src/lib/word-bank.service.ts`.  The pool starts
as the correct tokens (duplicates preserved), appends every heuristic
distractor not already among the correct tokens, optionally appends
length-sorted notebook tokens up to the distractor target, and is shuffled.
The float average length of the source is modelled exactly over `ℚ`. -/
def generateWordPool (tape : Nat → Nat) (correctAnswer : List Char)
    (allPhrases : List LearnPhraseDTO) (currentPhraseId : Nat)
    (direction : LearnDirection) : List (List Char) :=
  let correctTokens := tokenizePhrase correctAnswer
  let correctTokenCount := correctTokens.length
  let correctTokensSet := correctTokens.map fun t => t.map jsToLower
  let pool := correctTokens ++ filteredHeuristic correctTokens
  let pool2 :=
    if pool.length - correctTokenCount < targetDistractorCount correctTokenCount
        && allPhrases.length > 1 then
      let notebookTokens := extractTokensFromNotebook allPhrases currentPhraseId direction
      let availableDistractors := notebookTokens.filter fun token =>
        !(correctTokensSet.contains (token.map jsToLower)) && !(pool.contains token)
      let avgLength : ℚ :=
        if correctTokens.length > 0 then
          ((correctTokens.map List.length).sum : ℚ) / (correctTokens.length : ℚ)
        else 5
      let sortedDistractors :=
        sortByKey (fun a => |(a.length : ℚ) - avgLength|) availableDistractors
      let needed := targetDistractorCount correctTokenCount - (pool.length - correctTokenCount)
      pool ++ sortedDistractors.take needed
    else pool
  shuffleArray tape pool2

example :
    List.count "the".toList
      (generateWordPool (fun _ => 0) "the cat sat on the mat".toList [] 7 .en_to_pl) = 2 := by
  decide
example :
    (generateWordPool (fun _ => 0) "at is do some".toList [] 7 .en_to_pl).length = 11 := by
  decide

/-- The two segment kinds of `AnswerDiffView`'s word-level diff. -/
inductive DiffType where
  | equal
  | different
deriving Repr, DecidableEq

/-- One diff segment `{ type, text }` (`type` is a Lean keyword, hence
`segType`). -/
structure DiffSegment where
  segType : DiffType
  text : List Char
deriving Repr, DecidableEq

/-- Model of `split(/(\s+)/)`: alternating word / whitespace-run tokens,
keeping the captured whitespace, with (possibly empty) word tokens at the
boundaries exactly as in JavaScript. -/
def splitKeepWs (s : List Char) : List (List Char) :=
  match h : s.dropWhile (fun c => !isJsWhitespace c) with
  | [] => [s.takeWhile fun c => !isJsWhitespace c]
  | c :: cs' =>
    (s.takeWhile fun c => !isJsWhitespace c) ::
      (c :: cs').takeWhile isJsWhitespace ::
      splitKeepWs ((c :: cs').dropWhile isJsWhitespace)
termination_by s.length
decreasing_by
  have h2 : (s.dropWhile fun c => !isJsWhitespace c).length ≤ s.length :=
    (List.dropWhile_suffix _).length_le
  rw [h] at h2
  have h3 : isJsWhitespace c = true := by
    have h5 := List.head?_dropWhile_not (fun c => !isJsWhitespace c) s
    rw [h] at h5
    simpa using h5
  rw [List.dropWhile_cons_of_pos h3]
  have h4 : (cs'.dropWhile isJsWhitespace).length ≤ cs'.length :=
    (List.dropWhile_suffix _).length_le
  simp only [List.length_cons] at h2
  omega

/-- The test `/^\s+$/.test(t)`: a non-empty all-whitespace token. -/
def isWsToken (t : List Char) : Bool :=
  !t.isEmpty && t.all isJsWhitespace

/-- `headWs ts` is true when the first remaining original token exists and
is pure whitespace. -/
def headWs (ts : List (List Char)) : Bool :=
  match ts with
  | [] => false
  | t :: _ => isWsToken t

/-- Emit the head token of `ts` (when one exists) as a segment of the given
kind; mirrors the source's `if (idx < words.length) segments.push(...)`. -/
def pushHead (ts : List (List Char)) (ty : DiffType) (segs : List DiffSegment) :
    List DiffSegment :=
  match ts with
  | [] => segs
  | t :: _ => ⟨ty, t⟩ :: segs

/-- The main loop of `diffOriginalStrings`, with the four index/array pairs
of the source replaced by the four remaining suffixes: original user tokens
`us`, original correct tokens `cs` (both from `split(/(\s+)/)`), and
normalized word lists `nus`, `ncs`.  Each iteration of the source loop reads
only the current element of each array and advances indices by one, so the
suffix form is the same computation. -/
def diffGo : List (List Char) → List (List Char) → List (List Char) → List (List Char) →
    List DiffSegment × List DiffSegment
  | [], [], _, _ => ([], [])
  | u :: us', cs, nus, ncs =>
    if isWsToken u then
      let r := diffGo us' cs nus ncs
      (⟨.equal, u⟩ :: r.1, r.2)
    else if hc : headWs cs then
      let r := diffGo (u :: us') cs.tail nus ncs
      (r.1, ⟨.equal, cs.head?.getD []⟩ :: r.2)
    else if nus.head?.isSome && nus.head? == ncs.head? then
      let r := diffGo us' cs.tail nus.tail ncs.tail
      (⟨.equal, u⟩ :: r.1, pushHead cs .equal r.2)
    else
      let r := diffGo us' cs.tail nus.tail ncs.tail
      (⟨.different, u⟩ :: r.1, pushHead cs .different r.2)
  | [], c :: cs', nus, ncs =>
    if isWsToken c then
      let r := diffGo [] cs' nus ncs
      (r.1, ⟨.equal, c⟩ :: r.2)
    else if nus.head?.isSome && nus.head? == ncs.head? then
      let r := diffGo [] cs' nus.tail ncs.tail
      (r.1, ⟨.equal, c⟩ :: r.2)
    else
      let r := diffGo [] cs' nus.tail ncs.tail
      (r.1, ⟨.different, c⟩ :: r.2)
termination_by us cs _ _ => us.length + cs.length
decreasing_by
  all_goals simp only [List.length_cons, List.length_tail]
  · omega
  · cases cs with
    | nil => simp [headWs] at hc
    | cons c cs' => simp only [List.length_cons]; omega
  all_goals omega

/-- `diffOriginalStrings` from `AnswerDiffView.tsx`: if the normalized
strings are equal, each side is one `equal` segment holding the full
original text; otherwise run the word-level lock-step walk. -/
def diffOriginalStrings (userAnswer correctAnswer normalizedUser normalizedCorrect :
    List Char) : List DiffSegment × List DiffSegment :=
  if normalizedUser == normalizedCorrect then
    ([⟨.equal, userAnswer⟩], [⟨.equal, correctAnswer⟩])
  else
    diffGo (splitKeepWs userAnswer) (splitKeepWs correctAnswer)
      (splitWs normalizedUser) (splitWs normalizedCorrect)

/-- Concatenation of the `text` fields of a segment list. -/
def segText (segs : List DiffSegment) : List Char :=
  (segs.map DiffSegment.text).flatten

/-- `SessionPhase`. -/
inductive SessionPhase where
  | idle
  | in_progress
  | round_summary
deriving Repr, DecidableEq

/-- `AnswerInputMode`. -/
inductive AnswerInputMode where
  | text
  | word_bank
  | hybrid
deriving Repr, DecidableEq

/-- The resolved per-card input mode (`getEffectiveInputMode` returns
`"text" | "word_bank"`). -/
inductive EffectiveMode where
  | text
  | word_bank
deriving Repr, DecidableEq

/-- `CardResultState`: the stored result for one card.  `backendResult` is
the `CheckAnswerResultDTO` triple, modelled by `CompareResult`. -/
structure CardResultState where
  isChecked : Bool
  isCorrect : Option Bool
  backendResult : Option CompareResult
  userAnswer : List Char
  correctAnswer : List Char
  selectedTokens : Option (List (List Char))
deriving Repr, DecidableEq

/-- `LearnSessionState`.  `answers` is the `Record<string, CardResultState>`
keyed by phrase id; phrase ids in the real system are UUID strings, for
which JavaScript objects preserve insertion order, so the record is an
insertion-ordered association list. -/
structure LearnSessionState where
  phase : SessionPhase
  direction : LearnDirection
  shuffle : Bool
  useContainsMode : Bool
  answerInputMode : AnswerInputMode
  currentRound : List LearnPhraseDTO
  currentIndex : Nat
  roundNumber : Nat
  correctCount : Int
  incorrectCount : Int
  answers : List (Nat × CardResultState)
  incorrectPhrases : List LearnPhraseDTO
deriving Repr, DecidableEq

/-- `createInitialSessionState`. -/
def createInitialSessionState : LearnSessionState where
  phase := .idle
  direction := .en_to_pl
  shuffle := true
  useContainsMode := false
  answerInputMode := .text
  currentRound := []
  currentIndex := 0
  roundNumber := 1
  correctCount := 0
  incorrectCount := 0
  answers := []
  incorrectPhrases := []

/-- `getCorrectAnswer`. -/
def getCorrectAnswer (phrase : LearnPhraseDTO) (direction : LearnDirection) : List Char :=
  match direction with
  | .en_to_pl => phrase.pl_text
  | .pl_to_en => phrase.en_text

/-- `getEffectiveInputMode` (with the phrase present, as at every use in
the handlers): hybrid resolves to text for answers of at most two tokens
and to word bank otherwise. -/
def getEffectiveInputMode (answerInputMode : AnswerInputMode)
    (phrase : LearnPhraseDTO) (direction : LearnDirection) : EffectiveMode :=
  match answerInputMode with
  | .hybrid =>
    if (tokenizePhrase (getCorrectAnswer phrase direction)).length ≤ 2 then .text
    else .word_bank
  | .text => .text
  | .word_bank => .word_bank

/-- `session.currentRound[session.currentIndex]` guarded by the
`in_progress` phase — the `currentPhrase` of the component. -/
def currentPhraseOf (s : LearnSessionState) : Option LearnPhraseDTO :=
  if s.phase = .in_progress then s.currentRound[s.currentIndex]? else none

/-- Object-spread update `{ ...m, [k]: v }` on an insertion-ordered record:
replace in place when the key exists, append otherwise. -/
def setRecord {β : Type} (m : List (Nat × β)) (k : Nat) (v : β) : List (Nat × β) :=
  if m.any (fun e => e.1 == k) then
    m.map fun e => if e.1 == k then (k, v) else e
  else m ++ [(k, v)]

/-- The test `answer && answer.isChecked && answer.isCorrect === false` of
the `incorrectPhrases` recomputation. -/
def checkedIncorrectB (r : Option CardResultState) : Bool :=
  match r with
  | some r => r.isChecked && r.isCorrect == some false
  | none => false

/-- The `incorrectPhrases` recomputation of `handleCheckAnswer`: walk the
round, keep each phrase whose answer is checked and incorrect in a record
keyed by id (insertion-ordered, value overwritten on repeat), then take the
values. -/
def recomputeIncorrect (round : List LearnPhraseDTO)
    (answers : List (Nat × CardResultState)) : List LearnPhraseDTO :=
  (round.foldl
    (fun m p =>
      if checkedIncorrectB (List.lookup p.id answers) then setRecord m p.id p else m)
    []).map Prod.snd

/-- `startRound` (the state part): no-op on an empty phrase list, otherwise
enter `in_progress` with the (optionally shuffled) phrases and reset
counters, answers and the incorrect set. -/
def startRound (tape : Nat → Nat) (s : LearnSessionState)
    (phrases : List LearnPhraseDTO) : LearnSessionState :=
  if phrases.isEmpty then s
  else
    { s with
      phase := .in_progress
      currentRound := if s.shuffle then shuffleArray tape phrases else phrases
      currentIndex := 0
      correctCount := 0
      incorrectCount := 0
      answers := []
      incorrectPhrases := [] }

/-- `handleUserAnswerChange`: rejected when there is no current card or the
card is already checked; otherwise store the raw value, creating the card
result on first keystroke. -/
def handleUserAnswerChange (value : List Char) (s : LearnSessionState) :
    LearnSessionState :=
  match currentPhraseOf s with
  | none => s
  | some phrase =>
    let prevState := List.lookup phrase.id s.answers
    if (prevState.map CardResultState.isChecked).getD false then s
    else
      { s with
        answers := setRecord s.answers phrase.id
          { isChecked := (prevState.map CardResultState.isChecked).getD false
            isCorrect := (prevState.map CardResultState.isCorrect).getD none
            backendResult := (prevState.map CardResultState.backendResult).getD none
            correctAnswer := match prevState with
              | some r => r.correctAnswer
              | none => getCorrectAnswer phrase s.direction
            userAnswer := value
            selectedTokens := prevState.bind CardResultState.selectedTokens } }

/-- `handleWordBankTokenSelect`: append the token and recompute
`userAnswer` as the space-joined token sequence; rejected once checked. -/
def handleWordBankTokenSelect (token : List Char) (s : LearnSessionState) :
    LearnSessionState :=
  match currentPhraseOf s with
  | none => s
  | some phrase =>
    let prevState := List.lookup phrase.id s.answers
    if (prevState.map CardResultState.isChecked).getD false then s
    else
      let newTokens := ((prevState.bind CardResultState.selectedTokens).getD []) ++ [token]
      { s with
        answers := setRecord s.answers phrase.id
          { isChecked := (prevState.map CardResultState.isChecked).getD false
            isCorrect := (prevState.map CardResultState.isCorrect).getD none
            backendResult := (prevState.map CardResultState.backendResult).getD none
            correctAnswer := match prevState with
              | some r => r.correctAnswer
              | none => getCorrectAnswer phrase s.direction
            userAnswer := joinSpace newTokens
            selectedTokens := some newTokens } }

/-- `handleWordBankTokenRemove`: drop the token at the given index (the
source filters on index inequality) and recompute `userAnswer`; rejected
once checked. -/
def handleWordBankTokenRemove (index : Nat) (s : LearnSessionState) :
    LearnSessionState :=
  match currentPhraseOf s with
  | none => s
  | some phrase =>
    let prevState := List.lookup phrase.id s.answers
    if (prevState.map CardResultState.isChecked).getD false then s
    else
      let newTokens := ((prevState.bind CardResultState.selectedTokens).getD []).eraseIdx index
      { s with
        answers := setRecord s.answers phrase.id
          { isChecked := (prevState.map CardResultState.isChecked).getD false
            isCorrect := (prevState.map CardResultState.isCorrect).getD none
            backendResult := (prevState.map CardResultState.backendResult).getD none
            correctAnswer := match prevState with
              | some r => r.correctAnswer
              | none => getCorrectAnswer phrase s.direction
            userAnswer := joinSpace newTokens
            selectedTokens := some newTokens } }

/-- The counter-adjustment block of `handleCheckAnswer`: a first check
increments one counter; a re-check whose outcome flipped moves one count
across; otherwise the counters are untouched. -/
def adjustCounts (correctCount incorrectCount : Int) (wasAnsweredBefore : Bool)
    (previousCorrect : Option Bool) (isCorrect : Bool) : Int × Int :=
  if !wasAnsweredBefore then
    if isCorrect then (correctCount + 1, incorrectCount)
    else (correctCount, incorrectCount + 1)
  else
    match previousCorrect with
    | some b =>
      if b ≠ isCorrect then
        if b then (correctCount - 1, incorrectCount + 1)
        else (correctCount + 1, incorrectCount - 1)
      else (correctCount, incorrectCount)
    | none => (correctCount, incorrectCount)

/-- `handleCheckAnswer`: compute the local comparison for the current card
(word-bank or text path by effective mode), adjust the counters (first
check increments; a re-check with a flipped outcome moves one count across),
store the frozen card result, and recompute `incorrectPhrases` from the
round and the new answers. -/
def handleCheckAnswer (s : LearnSessionState) : LearnSessionState :=
  match currentPhraseOf s with
  | none => s
  | some phrase =>
    let correctAnswer := getCorrectAnswer phrase s.direction
    let currentCardResult := List.lookup phrase.id s.answers
    let effectiveMode := getEffectiveInputMode s.answerInputMode phrase s.direction
    let localComparison :=
      match effectiveMode with
      | .word_bank =>
        compareWordBankAnswer ((currentCardResult.bind CardResultState.selectedTokens).getD [])
          correctAnswer
      | .text =>
        compareAnswers ((currentCardResult.map CardResultState.userAnswer).getD [])
          correctAnswer s.useContainsMode
    let wasAnsweredBefore := (currentCardResult.map CardResultState.isChecked).getD false
    let previousCorrect := (currentCardResult.map CardResultState.isCorrect).getD none
    let counts : Int × Int :=
      adjustCounts s.correctCount s.incorrectCount wasAnsweredBefore previousCorrect
        localComparison.isCorrect
    let userAnswer :=
      match effectiveMode with
      | .word_bank => joinSpace ((currentCardResult.bind CardResultState.selectedTokens).getD [])
      | .text => (currentCardResult.map CardResultState.userAnswer).getD []
    let newAnswers := setRecord s.answers phrase.id
      { isChecked := true
        isCorrect := some localComparison.isCorrect
        backendResult := some localComparison
        userAnswer := userAnswer
        correctAnswer := correctAnswer
        selectedTokens := currentCardResult.bind CardResultState.selectedTokens }
    { s with
      answers := newAnswers
      correctCount := counts.1
      incorrectCount := counts.2
      incorrectPhrases := recomputeIncorrect s.currentRound newAnswers }

/-- `goToNextCard`: only in `in_progress`; at the last card transition to
the round summary, otherwise advance the index. -/
def goToNextCard (s : LearnSessionState) : LearnSessionState :=
  if s.phase ≠ .in_progress then s
  else if s.currentRound.length - 1 ≤ s.currentIndex then
    { s with phase := .round_summary }
  else { s with currentIndex := s.currentIndex + 1 }

/-- `handleStartNextRoundWithIncorrect`: with no incorrect phrases, reset
to the initial (idle) state keeping the configuration; otherwise start the
next round on the shuffled incorrect phrases — the shuffle is applied
regardless of the session's shuffle setting. -/
def handleStartNextRoundWithIncorrect (tape : Nat → Nat) (s : LearnSessionState) :
    LearnSessionState :=
  if s.incorrectPhrases.isEmpty then
    { createInitialSessionState with
      direction := s.direction
      shuffle := s.shuffle
      useContainsMode := s.useContainsMode
      answerInputMode := s.answerInputMode }
  else
    { s with
      phase := .in_progress
      currentRound := shuffleArray tape s.incorrectPhrases
      currentIndex := 0
      roundNumber := s.roundNumber + 1
      correctCount := 0
      incorrectCount := 0
      answers := []
      incorrectPhrases := [] }

/-- The in-round operations a learner can trigger: answer edits (text value,
word-bank token select/remove), `check`, `skip`, and `next`.  Direction,
shuffle, contains-mode and input-mode switches are configuration made
before `start()` and are fixed for the session. -/
inductive SessionOp where
  | setText (value : List Char)
  | selectToken (token : List Char)
  | removeToken (index : Nat)
  | check
  | skip
  | next
deriving Repr, DecidableEq

/-- Apply one operation (`skip` is `goToNextCard`, as in the source). -/
def applySessionOp (op : SessionOp) (s : LearnSessionState) : LearnSessionState :=
  match op with
  | .setText v => handleUserAnswerChange v s
  | .selectToken t => handleWordBankTokenSelect t s
  | .removeToken i => handleWordBankTokenRemove i s
  | .check => handleCheckAnswer s
  | .skip => goToNextCard s
  | .next => goToNextCard s

/-- Apply a sequence of operations, oldest first. -/
def applySessionOps (ops : List SessionOp) (s : LearnSessionState) : LearnSessionState :=
  ops.foldl (fun st op => applySessionOp op st) s

/-- A session as configured before `start()`: direction, shuffle flag,
contains mode, and answer-input mode. -/
structure SessionConfig where
  direction : LearnDirection
  shuffle : Bool
  useContainsMode : Bool
  answerInputMode : AnswerInputMode
deriving Repr, DecidableEq

/-- `handleStart` after configuration: run `startRound` on the manifest
phrases from the initial state with the chosen configuration. -/
def startSession (cfg : SessionConfig) (tape : Nat → Nat)
    (phrases : List LearnPhraseDTO) : LearnSessionState :=
  startRound tape
    { createInitialSessionState with
      direction := cfg.direction
      shuffle := cfg.shuffle
      useContainsMode := cfg.useContainsMode
      answerInputMode := cfg.answerInputMode }
    phrases

/-! ## Permutation facts about the Fisher–Yates model -/

theorem cons_set_perm {α : Type} (t : List α) :
    ∀ (j : Nat) (a b : α), t[j]? = some b → (b :: t.set j a).Perm (a :: t) := by
  induction t with
  | nil => intro j a b hb; simp at hb
  | cons y t' ih =>
    intro j a b hb
    cases j with
    | zero =>
      simp only [List.getElem?_cons_zero, Option.some_inj] at hb
      rw [← hb]
      simpa using List.Perm.swap a y t'
    | succ j' =>
      simp only [List.getElem?_cons_succ] at hb
      have h1 := ih j' a b hb
      have h2 : (y :: t').set (j' + 1) a = y :: t'.set j' a := by simp
      rw [h2]
      exact (List.Perm.swap y b _).trans ((h1.cons y).trans (List.Perm.swap a y t'))

theorem set_set_perm {α : Type} :
    ∀ (l : List α) (i j : Nat) (a b : α), l[i]? = some a → l[j]? = some b →
      ((l.set i b).set j a).Perm l := by
  intro l
  induction l with
  | nil => intro i j a b hi _; simp at hi
  | cons x t ih =>
    intro i j a b hi hj
    cases i with
    | zero =>
      simp only [List.getElem?_cons_zero, Option.some_inj] at hi
      rw [← hi]
      cases j with
      | zero => simp
      | succ j' =>
        simp only [List.getElem?_cons_succ] at hj
        simp only [List.set_cons_zero, List.set_cons_succ]
        exact cons_set_perm t j' x b hj
    | succ i' =>
      simp only [List.getElem?_cons_succ] at hi
      cases j with
      | zero =>
        simp only [List.getElem?_cons_zero, Option.some_inj] at hj
        rw [← hj]
        simp only [List.set_cons_succ, List.set_cons_zero]
        exact cons_set_perm t i' x a hi
      | succ j' =>
        simp only [List.getElem?_cons_succ] at hj
        simp only [List.set_cons_succ]
        exact (ih i' j' a b hi hj).cons x

theorem listSwap_perm {α : Type} (l : List α) (i j : Nat) :
    (listSwap l i j).Perm l := by
  unfold listSwap
  cases hi : l[i]? with
  | none => exact List.Perm.refl l
  | some a =>
    cases hj : l[j]? with
    | none => exact List.Perm.refl l
    | some b => exact set_set_perm l i j a b hi hj

theorem shuffleAux_perm {α : Type} (tape : Nat → Nat) :
    ∀ (n : Nat) (l : List α), (shuffleAux tape n l).Perm l := by
  intro n
  induction n with
  | zero => intro l; exact List.Perm.refl l
  | succ i ih =>
    intro l
    exact (ih _).trans (listSwap_perm l (i + 1) (tape (i + 1) % (i + 2)))

/-- The Fisher–Yates shuffle is a permutation, whatever the random tape. -/
theorem shuffleArray_perm {α : Type} (tape : Nat → Nat) (items : List α) :
    (shuffleArray tape items).Perm items :=
  shuffleAux_perm tape (items.length - 1) items

/-- Whatever the inputs, `generateWordPool` shuffles a list that starts
with the correct tokens followed by all filtered heuristic distractors. -/
theorem generateWordPool_shape (tape : Nat → Nat) (c : List Char)
    (ps : List LearnPhraseDTO) (pid : Nat) (dir : LearnDirection) :
    ∃ rest, generateWordPool tape c ps pid dir =
      shuffleArray tape (tokenizePhrase c ++ filteredHeuristic (tokenizePhrase c) ++ rest) := by
  unfold generateWordPool
  dsimp only
  split
  · exact ⟨_, rfl⟩
  · exact ⟨[], by rw [List.append_nil]⟩

/-- C3: for every token sequence and correct answer, the word-bank
comparison returns exactly the result of `compareAnswers` on the
space-joined tokens in exact mode — same `isCorrect` and identical
normalized strings; word-bank never uses contains semantics. -/
theorem wordBank_equals_exact_compare :
    ∀ (selectedTokens : List (List Char)) (correctAnswer : List Char),
      compareWordBankAnswer selectedTokens correctAnswer =
        compareAnswers (joinSpace selectedTokens) correctAnswer false :=
  fun _ _ => rfl

/-- C9: contains mode rejects any user answer that normalizes to the empty
string — even when the correct answer also normalizes to empty — while
exact mode accepts when both sides normalize to empty. -/
theorem contains_rejects_empty_user :
    ∀ u c : List Char,
      (normalizeAnswerText u = [] → (compareAnswers u c true).isCorrect = false) ∧
      (normalizeAnswerText u = [] → normalizeAnswerText c = [] →
        (compareAnswers u c false).isCorrect = true) := by
  intro u c
  constructor
  · intro hu
    simp [compareAnswers, hu, splitWs, splitWsAux]
  · intro hu hc
    simp [compareAnswers, hu, hc]

theorem contains_rejects_empty_user_witness :
    normalizeAnswerText "!!!".toList = [] ∧
    (compareAnswers "!!!".toList "!!!".toList true).isCorrect = false ∧
    (compareAnswers "!!!".toList "!!!".toList false).isCorrect = true :=
  ⟨by decide, (contains_rejects_empty_user "!!!".toList "!!!".toList).1 (by decide),
    (contains_rejects_empty_user "!!!".toList "!!!".toList).2 (by decide) (by decide)⟩

/-- C5: from a round summary with a non-empty incorrect set,
`continueWithIncorrect` starts a new in-progress round whose phrase list is
a permutation of the previous round's incorrect phrases (it is
`shuffleArray` of them, regardless of the session's shuffle setting),
increments the round number, and resets counts, answers and the incorrect
set. -/
theorem continueWithIncorrect_starts_perm_round (tape : Nat → Nat)
    (s : LearnSessionState) (hphase : s.phase = .round_summary)
    (hne : s.incorrectPhrases ≠ []) :
    (handleStartNextRoundWithIncorrect tape s).phase = .in_progress ∧
    (handleStartNextRoundWithIncorrect tape s).currentRound.Perm s.incorrectPhrases ∧
    (handleStartNextRoundWithIncorrect tape s).currentRound =
      shuffleArray tape s.incorrectPhrases ∧
    (handleStartNextRoundWithIncorrect tape s).roundNumber = s.roundNumber + 1 ∧
    (handleStartNextRoundWithIncorrect tape s).correctCount = 0 ∧
    (handleStartNextRoundWithIncorrect tape s).incorrectCount = 0 ∧
    (handleStartNextRoundWithIncorrect tape s).answers = [] ∧
    (handleStartNextRoundWithIncorrect tape s).incorrectPhrases = [] := by
  have hne' : s.incorrectPhrases.isEmpty = false := by
    cases h : s.incorrectPhrases with
    | nil => exact absurd h hne
    | cons a l => rfl
  simp [handleStartNextRoundWithIncorrect, hne', shuffleArray_perm]

/-- A concrete summary state: two phrases played, one incorrect. -/
def roundSummaryExample : LearnSessionState :=
  { createInitialSessionState with
    phase := .round_summary
    currentRound := [⟨1, "cat".toList, "kot".toList⟩, ⟨2, "dog".toList, "pies".toList⟩]
    currentIndex := 1
    correctCount := 1
    incorrectCount := 1
    incorrectPhrases := [⟨2, "dog".toList, "pies".toList⟩] }

theorem continueWithIncorrect_starts_perm_round_witness :
    (handleStartNextRoundWithIncorrect (fun _ => 0) roundSummaryExample).phase = .in_progress ∧
    (handleStartNextRoundWithIncorrect (fun _ => 0) roundSummaryExample).currentRound.Perm
      roundSummaryExample.incorrectPhrases ∧
    (handleStartNextRoundWithIncorrect (fun _ => 0) roundSummaryExample).currentRound =
      shuffleArray (fun _ => 0) roundSummaryExample.incorrectPhrases ∧
    (handleStartNextRoundWithIncorrect (fun _ => 0) roundSummaryExample).roundNumber =
      roundSummaryExample.roundNumber + 1 ∧
    (handleStartNextRoundWithIncorrect (fun _ => 0) roundSummaryExample).correctCount = 0 ∧
    (handleStartNextRoundWithIncorrect (fun _ => 0) roundSummaryExample).incorrectCount = 0 ∧
    (handleStartNextRoundWithIncorrect (fun _ => 0) roundSummaryExample).answers = [] ∧
    (handleStartNextRoundWithIncorrect (fun _ => 0) roundSummaryExample).incorrectPhrases = [] :=
  continueWithIncorrect_starts_perm_round (fun _ => 0) roundSummaryExample rfl (by decide)

/-- C7: `generateWordPool` is total over all inputs (in particular it only
degrades to fewer distractors when the sibling corpus is exhausted — it
never fails), and the returned pool, as a multiset, contains every token of
`tokenizePhrase correctAnswer` with at least its multiplicity; concretely,
for "the cat sat on the mat" the pool holds two occurrences of "the". -/
theorem wordPool_contains_correct_tokens :
    (∀ (tape : Nat → Nat) (correctAnswer : List Char)
      (allPhrases : List LearnPhraseDTO) (currentPhraseId : Nat)
      (direction : LearnDirection),
      (↑(tokenizePhrase correctAnswer) : Multiset (List Char)) ≤
        ↑(generateWordPool tape correctAnswer allPhrases currentPhraseId direction)) ∧
    List.count "the".toList
      (generateWordPool (fun _ => 0) "the cat sat on the mat".toList [] 7 .en_to_pl) = 2 := by
  refine ⟨?_, by decide⟩
  intro tape c ps pid dir
  obtain ⟨rest, hr⟩ := generateWordPool_shape tape c ps pid dir
  rw [hr, Multiset.coe_eq_coe.mpr (shuffleArray_perm _ _), List.append_assoc]
  have h := Multiset.le_add_right (↑(tokenizePhrase c) : Multiset (List Char))
    ↑(filteredHeuristic (tokenizePhrase c) ++ rest)
  rw [Multiset.coe_add] at h
  exact h

/-- C10: the heuristic-distractor stage is not capped by the distractor
target — the pool always contains, beyond the correct tokens, every
filtered heuristic alternative; for "at is do some" the target is 3 yet the
pool carries 7 distractors (only the sibling-corpus sampling stage limits
itself to the remaining count). -/
theorem heuristic_distractors_uncapped :
    (∀ (tape : Nat → Nat) (correctAnswer : List Char)
      (allPhrases : List LearnPhraseDTO) (currentPhraseId : Nat)
      (direction : LearnDirection),
      (↑(tokenizePhrase correctAnswer ++ filteredHeuristic (tokenizePhrase correctAnswer)) :
          Multiset (List Char)) ≤
        ↑(generateWordPool tape correctAnswer allPhrases currentPhraseId direction)) ∧
    targetDistractorCount (tokenizePhrase "at is do some".toList).length = 3 ∧
    (filteredHeuristic (tokenizePhrase "at is do some".toList)).length = 7 ∧
    (generateWordPool (fun _ => 0) "at is do some".toList [] 7 .en_to_pl).length =
      (tokenizePhrase "at is do some".toList).length + 7 := by
  refine ⟨?_, by decide, by decide, by decide⟩
  intro tape c ps pid dir
  obtain ⟨rest, hr⟩ := generateWordPool_shape tape c ps pid dir
  rw [hr, Multiset.coe_eq_coe.mpr (shuffleArray_perm _ _)]
  have h := Multiset.le_add_right
    (↑(tokenizePhrase c ++ filteredHeuristic (tokenizePhrase c)) : Multiset (List Char)) ↑rest
  rw [Multiset.coe_add] at h
  exact h

/-! ## Diff reconstruction -/

theorem segText_nil : segText [] = [] := rfl

theorem segText_cons (ty : DiffType) (t : List Char) (segs : List DiffSegment) :
    segText (⟨ty, t⟩ :: segs) = t ++ segText segs := by
  simp [segText]

/-- The tokens of `split(/(\s+)/)` concatenate back to the input. -/
theorem splitKeepWs_flatten (s : List Char) : (splitKeepWs s).flatten = s := by
  induction s using splitKeepWs.induct with
  | case1 s h =>
    rw [splitKeepWs, h]
    have h2 := List.takeWhile_append_dropWhile (p := fun c => !isJsWhitespace c) (l := s)
    rw [h] at h2
    simpa using h2
  | case2 s c cs' h ih =>
    rw [splitKeepWs, h]
    simp only [List.flatten_cons]
    rw [ih]
    rw [List.takeWhile_append_dropWhile]
    have h2 := List.takeWhile_append_dropWhile (p := fun c => !isJsWhitespace c) (l := s)
    rw [h] at h2
    exact h2

theorem diffGo_texts : ∀ us cs nus ncs,
    segText (diffGo us cs nus ncs).1 = us.flatten ∧
    segText (diffGo us cs nus ncs).2 = cs.flatten := by
  intro us cs nus ncs
  induction us, cs, nus, ncs using diffGo.induct with
  | case1 nus ncs => simp [diffGo, segText]
  | case2 u us' cs nus ncs hws ih =>
    rw [diffGo]
    simp only [hws, if_pos]
    rw [segText_cons]
    exact ⟨by rw [ih.1, List.flatten_cons], ih.2⟩
  | case3 u us' cs nus ncs h1 hc ih =>
    rw [diffGo]
    simp only [h1, hc, dite_true, dite_false, if_pos, if_neg, Bool.false_eq_true,
      not_false_iff, ite_true, ite_false]
    rw [segText_cons]
    refine ⟨ih.1, ?_⟩
    cases cs with
    | nil => simp [headWs] at hc
    | cons c cs'' =>
      rw [ih.2]
      simp
  | case4 u us' cs nus ncs h1 h2 hcond ih =>
    rw [diffGo]
    simp only [h1, h2, hcond, dite_true, dite_false, if_pos, if_neg, Bool.false_eq_true,
      not_false_iff, ite_true, ite_false]
    rw [segText_cons]
    refine ⟨by rw [ih.1, List.flatten_cons], ?_⟩
    cases cs with
    | nil => simpa using ih.2
    | cons c cs'' =>
      rw [pushHead, segText_cons, ih.2]
      simp
  | case5 u us' cs nus ncs h1 h2 hcond ih =>
    rw [diffGo]
    simp only [h1, h2, hcond, dite_true, dite_false, if_pos, if_neg, Bool.false_eq_true,
      not_false_iff, ite_true, ite_false]
    rw [segText_cons]
    refine ⟨by rw [ih.1, List.flatten_cons], ?_⟩
    cases cs with
    | nil => simpa using ih.2
    | cons c cs'' =>
      rw [pushHead, segText_cons, ih.2]
      simp
  | case6 c cs' nus ncs hws ih =>
    rw [diffGo]
    simp only [hws, if_pos]
    rw [segText_cons]
    exact ⟨ih.1, by rw [ih.2, List.flatten_cons]⟩
  | case7 c cs' nus ncs h1 hcond ih =>
    rw [diffGo]
    simp only [h1, hcond, dite_true, dite_false, if_pos, if_neg, Bool.false_eq_true,
      not_false_iff, ite_true, ite_false]
    rw [segText_cons]
    exact ⟨ih.1, by rw [ih.2, List.flatten_cons]⟩
  | case8 c cs' nus ncs h1 h2 ih =>
    rw [diffGo]
    simp only [h1, h2, dite_true, dite_false, if_pos, if_neg, Bool.false_eq_true,
      not_false_iff, ite_true, ite_false]
    rw [segText_cons]
    exact ⟨ih.1, by rw [ih.2, List.flatten_cons]⟩

/-- C8: `diffOriginalStrings` terminates on every input (it is a total
function of the four strings), and concatenating the `text` fields of the
returned segments — whitespace segments included — reproduces the user
answer on the user side and the correct answer on the correct side,
exactly. -/
theorem diff_reconstructs_inputs :
    ∀ userAnswer correctAnswer normalizedUser normalizedCorrect : List Char,
      segText (diffOriginalStrings userAnswer correctAnswer
        normalizedUser normalizedCorrect).1 = userAnswer ∧
      segText (diffOriginalStrings userAnswer correctAnswer
        normalizedUser normalizedCorrect).2 = correctAnswer := by
  intro ua ca nu nc
  unfold diffOriginalStrings
  split
  · constructor <;> simp [segText]
  · have h := diffGo_texts (splitKeepWs ua) (splitKeepWs ca) (splitWs nu) (splitWs nc)
    exact ⟨by rw [h.1, splitKeepWs_flatten], by rw [h.2, splitKeepWs_flatten]⟩

/-! ## Canonical form of normalized text

`normalizeAnswerText` always produces a string in the canonical form below;
applying the pipeline to a canonical string that does not end in sentence
punctuation is the identity.  These two facts drive the idempotence and
contains/exact theorems. -/

theorem char_toNat_ofNat_of_lt {n : Nat} (h : n < 0xD800) : (Char.ofNat n).toNat = n := by
  have hv : n.isValidChar := Or.inl h
  unfold Char.ofNat
  rw [dif_pos hv]
  simp [Char.ofNatAux, Char.toNat, UInt32.toNat]

theorem char_eq_of_toNat {c d : Char} (h : c.toNat = d.toNat) : c = d :=
  Char.ext (UInt32.toNat.inj h)

/-- `jsToLower` either shifts an upper-case Basic Latin letter down by 32 or
leaves the character unchanged. -/
theorem jsToLower_spec (c : Char) :
    (65 ≤ c.toNat ∧ c.toNat ≤ 90 ∧ (jsToLower c).toNat = c.toNat + 32) ∨
    ((c.toNat < 65 ∨ 90 < c.toNat) ∧ jsToLower c = c) := by
  unfold jsToLower
  split
  case isTrue h =>
    left
    simp only [Bool.and_eq_true, decide_eq_true_eq, ge_iff_le] at h
    exact ⟨h.1, h.2, by rw [char_toNat_ofNat_of_lt (by omega)]⟩
  case isFalse h =>
    right
    simp only [Bool.and_eq_true, decide_eq_true_eq, ge_iff_le, not_and_or, not_le] at h
    exact ⟨h, rfl⟩

/-- Lowercasing commutes with every character class used by the pipeline
and is idempotent. -/
theorem jsToLower_classes (c : Char) :
    isJsWhitespace (jsToLower c) = isJsWhitespace c ∧
    isInvisibleChar (jsToLower c) = isInvisibleChar c ∧
    isEmphChar (jsToLower c) = isEmphChar c ∧
    isTrailPunct (jsToLower c) = isTrailPunct c ∧
    jsToLower (jsToLower c) = jsToLower c := by
  rcases jsToLower_spec c with ⟨h1, h2, h3⟩ | ⟨h1, h2⟩
  · have e1 : isJsWhitespace (jsToLower c) = false := by
      simp only [isJsWhitespace, Bool.or_eq_false_iff, Bool.and_eq_false_iff,
        beq_eq_false_iff_ne, ne_eq, decide_eq_false_iff_not, not_le]
      omega
    have e2 : isJsWhitespace c = false := by
      simp only [isJsWhitespace, Bool.or_eq_false_iff, Bool.and_eq_false_iff,
        beq_eq_false_iff_ne, ne_eq, decide_eq_false_iff_not, not_le]
      omega
    have e3 : isInvisibleChar (jsToLower c) = false := by
      simp only [isInvisibleChar, Bool.or_eq_false_iff, Bool.and_eq_false_iff,
        beq_eq_false_iff_ne, ne_eq, decide_eq_false_iff_not, not_le]
      omega
    have e4 : isInvisibleChar c = false := by
      simp only [isInvisibleChar, Bool.or_eq_false_iff, Bool.and_eq_false_iff,
        beq_eq_false_iff_ne, ne_eq, decide_eq_false_iff_not, not_le]
      omega
    have e5 : isEmphChar (jsToLower c) = false := by
      simp only [isEmphChar, Bool.or_eq_false_iff, beq_eq_false_iff_ne, ne_eq]
      omega
    have e6 : isEmphChar c = false := by
      simp only [isEmphChar, Bool.or_eq_false_iff, beq_eq_false_iff_ne, ne_eq]
      omega
    have e7 : isTrailPunct (jsToLower c) = false := by
      simp only [isTrailPunct, Bool.or_eq_false_iff, beq_eq_false_iff_ne, ne_eq]
      omega
    have e8 : isTrailPunct c = false := by
      simp only [isTrailPunct, Bool.or_eq_false_iff, beq_eq_false_iff_ne, ne_eq]
      omega
    have e9 : jsToLower (jsToLower c) = jsToLower c := by
      rcases jsToLower_spec (jsToLower c) with ⟨g1, g2, _⟩ | ⟨_, g2⟩
      · omega
      · exact g2
    exact ⟨by rw [e1, e2], by rw [e3, e4], by rw [e5, e6], by rw [e7, e8], e9⟩
  · rw [h2]
    exact ⟨rfl, rfl, rfl, rfl, h2⟩

/-- A character the pipeline can no longer change: not invisible, not an
emphasis marker, fixed by lowercasing, and equal to `' '` if whitespace. -/
def cleanChar (c : Char) : Prop :=
  isInvisibleChar c = false ∧ isEmphChar c = false ∧ jsToLower c = c ∧
    (isJsWhitespace c = true → c = ' ')

instance : DecidablePred cleanChar := fun c =>
  inferInstanceAs (Decidable (isInvisibleChar c = false ∧ isEmphChar c = false ∧
    jsToLower c = c ∧ (isJsWhitespace c = true → c = ' ')))

/-- Adjacent characters are never both whitespace. -/
def noAdjWs (a b : Char) : Prop :=
  isJsWhitespace a = false ∨ isJsWhitespace b = false

/-- The canonical form produced by `normalizeAnswerText`: clean characters,
no two adjacent whitespace characters, and no whitespace at either end. -/
def Canonical (l : List Char) : Prop :=
  (∀ c ∈ l, cleanChar c) ∧ List.Chain' noAdjWs l ∧
  (∀ c, l.head? = some c → isJsWhitespace c = false) ∧
  (∀ c, l.getLast? = some c → isJsWhitespace c = false)

theorem noAdjWs_symm {a b : Char} (h : noAdjWs a b) : noAdjWs b a := h.symm

theorem chain'_reverse_noAdjWs {l : List Char} (h : List.Chain' noAdjWs l) :
    List.Chain' noAdjWs l.reverse := by
  rw [List.chain'_reverse]
  exact h.imp fun a b hab => noAdjWs_symm hab

theorem mem_replaceRunsAux {p : Char → Bool} :
    ∀ {b : Bool} {l : List Char} {c : Char}, c ∈ replaceRunsAux p b l →
      c = ' ' ∨ (c ∈ l ∧ p c = false) := by
  intro b l
  induction l generalizing b with
  | nil => intro c h; simp [replaceRunsAux] at h
  | cons x t ih =>
    intro c h
    unfold replaceRunsAux at h
    by_cases hx : p x = true
    · rw [if_pos hx] at h
      rcases b with _ | _
      · simp only [Bool.false_eq_true, if_false, List.mem_cons] at h
        rcases h with h | h
        · exact Or.inl h
        · rcases ih h with h' | h'
          · exact Or.inl h'
          · exact Or.inr ⟨List.mem_cons_of_mem x h'.1, h'.2⟩
      · simp only [if_true] at h
        rcases ih h with h' | h'
        · exact Or.inl h'
        · exact Or.inr ⟨List.mem_cons_of_mem x h'.1, h'.2⟩
    · rw [if_neg hx] at h
      rcases List.mem_cons.mp h with h' | h'
      · subst h'
        exact Or.inr ⟨List.mem_cons_self c t, by revert hx; cases p c <;> simp⟩
      · rcases ih h' with h'' | h''
        · exact Or.inl h''
        · exact Or.inr ⟨List.mem_cons_of_mem x h''.1, h''.2⟩

theorem head_replaceRunsAux_true {p : Char → Bool} :
    ∀ {l : List Char} {c : Char}, (replaceRunsAux p true l).head? = some c → p c = false := by
  intro l
  induction l with
  | nil => intro c h; simp [replaceRunsAux] at h
  | cons x t ih =>
    intro c h
    unfold replaceRunsAux at h
    by_cases hx : p x = true
    · rw [if_pos hx, if_pos rfl] at h
      exact ih h
    · rw [if_neg hx] at h
      simp only [List.head?_cons, Option.some_inj] at h
      rw [← h]
      revert hx
      cases p x <;> simp

theorem chain'_replaceRunsAux {p : Char → Bool} :
    ∀ (b : Bool) (l : List Char),
      List.Chain' (fun a c => p a = false ∨ p c = false) (replaceRunsAux p b l) := by
  intro b l
  induction l generalizing b with
  | nil => simp [replaceRunsAux]
  | cons x t ih =>
    unfold replaceRunsAux
    by_cases hx : p x = true
    · rw [if_pos hx]
      rcases b with _ | _
      · simp only [Bool.false_eq_true, if_false]
        rw [List.chain'_cons']
        refine ⟨?_, ih true⟩
        intro y hy
        exact Or.inr (head_replaceRunsAux_true hy)
      · simp only [if_true]
        exact ih true
    · rw [if_neg hx]
      rw [List.chain'_cons']
      refine ⟨?_, ih false⟩
      intro y hy
      left
      revert hx
      cases p x <;> simp

theorem head?_append_of_some {α : Type} {l₁ l₂ : List α} {c : α}
    (h : l₁.head? = some c) : (l₁ ++ l₂).head? = some c := by
  cases l₁ with
  | nil => simp at h
  | cons x t => simpa using h

theorem mem_trimLeft {l : List Char} {c : Char} (h : c ∈ trimLeft l) : c ∈ l :=
  (List.dropWhile_suffix _).subset h

theorem mem_trimRight {l : List Char} {c : Char} (h : c ∈ trimRight l) : c ∈ l := by
  unfold trimRight at h
  rw [List.mem_reverse] at h
  have := (List.dropWhile_suffix (l := l.reverse) isJsWhitespace).subset h
  rwa [List.mem_reverse] at this

theorem mem_jsTrim {l : List Char} {c : Char} (h : c ∈ jsTrim l) : c ∈ l :=
  mem_trimLeft (mem_trimRight h)

theorem mem_stripTrailingPunct {l : List Char} {c : Char}
    (h : c ∈ stripTrailingPunct l) : c ∈ l := by
  unfold stripTrailingPunct at h
  rw [List.mem_reverse] at h
  have := (List.dropWhile_suffix (l := l.reverse) isTrailPunct).subset h
  rwa [List.mem_reverse] at this

theorem chain'_trimLeft {l : List Char} (h : List.Chain' noAdjWs l) :
    List.Chain' noAdjWs (trimLeft l) :=
  h.suffix (List.dropWhile_suffix _)

theorem chain'_trimRight {l : List Char} (h : List.Chain' noAdjWs l) :
    List.Chain' noAdjWs (trimRight l) :=
  chain'_reverse_noAdjWs ((chain'_reverse_noAdjWs h).suffix (List.dropWhile_suffix _))

theorem chain'_jsTrim {l : List Char} (h : List.Chain' noAdjWs l) :
    List.Chain' noAdjWs (jsTrim l) :=
  chain'_trimRight (chain'_trimLeft h)

theorem chain'_stripTrailingPunct {l : List Char} (h : List.Chain' noAdjWs l) :
    List.Chain' noAdjWs (stripTrailingPunct l) :=
  chain'_reverse_noAdjWs ((chain'_reverse_noAdjWs h).suffix (List.dropWhile_suffix _))

/-- A suffix produced by `dropWhile` starts with a character failing the
predicate. -/
theorem head?_dropWhile_false {p : Char → Bool} {l : List Char} {c : Char}
    (h : (l.dropWhile p).head? = some c) : p c = false := by
  have h2 := List.head?_dropWhile_not p l
  rw [h] at h2
  exact h2

/-- The head of `trimRight l` (when present) is the head of `l`. -/
theorem head?_trimRight_eq {l : List Char} {c : Char}
    (h : (trimRight l).head? = some c) : l.head? = some c := by
  unfold trimRight at h
  obtain ⟨pre, hpre⟩ := List.dropWhile_suffix (l := l.reverse) isJsWhitespace
  have hl : l = (l.reverse.dropWhile isJsWhitespace).reverse ++ pre.reverse := by
    have h3 := congrArg List.reverse hpre
    rw [List.reverse_append, List.reverse_reverse] at h3
    exact h3.symm
  rw [hl]
  exact head?_append_of_some h

theorem head?_jsTrim_notWs {l : List Char} {c : Char}
    (h : (jsTrim l).head? = some c) : isJsWhitespace c = false :=
  head?_dropWhile_false (head?_trimRight_eq h)

theorem getLast?_trimRight_notWs {l : List Char} {c : Char}
    (h : (trimRight l).getLast? = some c) : isJsWhitespace c = false := by
  unfold trimRight at h
  rw [List.getLast?_reverse] at h
  exact head?_dropWhile_false h

theorem getLast?_stripTrailingPunct_notPunct {l : List Char} {c : Char}
    (h : (stripTrailingPunct l).getLast? = some c) : isTrailPunct c = false := by
  unfold stripTrailingPunct at h
  rw [List.getLast?_reverse] at h
  exact head?_dropWhile_false h

/-- Stage lemma: every normalized string is canonical. -/
theorem canonical_normalize (s : List Char) : Canonical (normalizeAnswerText s) := by
  have hspace : cleanChar ' ' := ⟨by decide, by decide, by decide, fun _ => rfl⟩
  have h0 : ∀ c ∈ s.map (fun c => if isInvisibleChar c then ' ' else c),
      isInvisibleChar c = false := by
    intro c hc
    rcases List.mem_map.mp hc with ⟨c₀, _, hcc⟩
    by_cases hi : isInvisibleChar c₀ = true
    · rw [if_pos hi] at hcc; rw [← hcc]; decide
    · rw [if_neg hi] at hcc; rw [← hcc]
      revert hi; cases isInvisibleChar c₀ <;> simp
  have f1 : ∀ c ∈ replaceRuns isEmphChar
      (s.map (fun c => if isInvisibleChar c then ' ' else c)),
      isInvisibleChar c = false ∧ isEmphChar c = false := by
    intro c hc
    rcases mem_replaceRunsAux hc with h | ⟨hmem, hemph⟩
    · rw [h]; exact ⟨by decide, by decide⟩
    · exact ⟨h0 c hmem, hemph⟩
  have f2 : ∀ c ∈ jsTrim (replaceRuns isEmphChar
      (s.map (fun c => if isInvisibleChar c then ' ' else c))),
      isInvisibleChar c = false ∧ isEmphChar c = false :=
    fun c hc => f1 c (mem_jsTrim hc)
  have f3 : ∀ c ∈ replaceRuns isJsWhitespace (jsTrim (replaceRuns isEmphChar
      (s.map (fun c => if isInvisibleChar c then ' ' else c)))),
      cleanChar c ∨ (isInvisibleChar c = false ∧ isEmphChar c = false ∧
        (isJsWhitespace c = true → c = ' ')) := by
    intro c hc
    rcases mem_replaceRunsAux hc with h | ⟨hmem, hws⟩
    · rw [h]; exact Or.inl hspace
    · exact Or.inr ⟨(f2 c hmem).1, (f2 c hmem).2, fun hws' => by rw [hws'] at hws; cases hws⟩
  have f4 : ∀ c ∈ (replaceRuns isJsWhitespace (jsTrim (replaceRuns isEmphChar
      (s.map (fun c => if isInvisibleChar c then ' ' else c))))).map jsToLower,
      cleanChar c := by
    intro c hc
    rcases List.mem_map.mp hc with ⟨c₀, hc₀, hcc⟩
    obtain ⟨g1, g2, g3, g4, g5⟩ := jsToLower_classes c₀
    rcases f3 c₀ hc₀ with ⟨e1, e2, e3, e4⟩ | ⟨e1, e2, e4⟩
    all_goals {
      refine ⟨?_, ?_, ?_, ?_⟩ <;> rw [← hcc]
      · rw [g2, e1]
      · rw [g3, e2]
      · exact g5
      · intro hws
        rw [g1] at hws
        have hc₀sp := e4 hws
        rw [hc₀sp]
        decide }
  have c3 : List.Chain' noAdjWs (replaceRuns isJsWhitespace (jsTrim (replaceRuns isEmphChar
      (s.map (fun c => if isInvisibleChar c then ' ' else c))))) :=
    chain'_replaceRunsAux false _
  have c4 : List.Chain' noAdjWs ((replaceRuns isJsWhitespace (jsTrim (replaceRuns isEmphChar
      (s.map (fun c => if isInvisibleChar c then ' ' else c))))).map jsToLower) := by
    rw [List.chain'_map]
    refine c3.imp ?_
    intro a b hab
    unfold noAdjWs at hab ⊢
    rw [(jsToLower_classes a).1, (jsToLower_classes b).1]
    exact hab
  refine ⟨?_, ?_, ?_, ?_⟩
  · intro c hc
    exact f4 c (mem_stripTrailingPunct (mem_jsTrim hc))
  · exact chain'_jsTrim (chain'_stripTrailingPunct c4)
  · intro c hc
    exact head?_jsTrim_notWs hc
  · intro c hc
    exact getLast?_trimRight_notWs hc

theorem map_id_of_fix {f : Char → Char} :
    ∀ {l : List Char}, (∀ c ∈ l, f c = c) → l.map f = l := by
  intro l
  induction l with
  | nil => intro _; rfl
  | cons x t ih =>
    intro h
    simp only [List.map_cons]
    rw [h x (List.mem_cons_self x t), ih fun c hc => h c (List.mem_cons_of_mem x hc)]

theorem replaceRunsAux_id_of_none {p : Char → Bool} :
    ∀ {l : List Char}, (∀ c ∈ l, p c = false) → ∀ b, replaceRunsAux p b l = l := by
  intro l
  induction l with
  | nil => intro _ b; rfl
  | cons x t ih =>
    intro h b
    unfold replaceRunsAux
    rw [if_neg (by rw [h x (List.mem_cons_self x t)]; simp)]
    rw [ih (fun c hc => h c (List.mem_cons_of_mem x hc)) false]

theorem dropWhile_id_of_head {p : Char → Bool} :
    ∀ {l : List Char}, (∀ c, l.head? = some c → p c = false) → l.dropWhile p = l := by
  intro l h
  cases l with
  | nil => rfl
  | cons x t =>
    rw [List.dropWhile_cons_of_neg]
    rw [h x rfl]
    simp

theorem trimLeft_id {l : List Char}
    (h : ∀ c, l.head? = some c → isJsWhitespace c = false) : trimLeft l = l :=
  dropWhile_id_of_head h

theorem trimRight_id {l : List Char}
    (h : ∀ c, l.getLast? = some c → isJsWhitespace c = false) : trimRight l = l := by
  unfold trimRight
  rw [dropWhile_id_of_head, List.reverse_reverse]
  intro c hc
  rw [List.head?_reverse] at hc
  exact h c hc

theorem jsTrim_id {l : List Char}
    (hh : ∀ c, l.head? = some c → isJsWhitespace c = false)
    (hl : ∀ c, l.getLast? = some c → isJsWhitespace c = false) : jsTrim l = l := by
  unfold jsTrim
  rw [trimLeft_id hh, trimRight_id hl]

theorem stripTrailingPunct_id {l : List Char}
    (h : ∀ c, l.getLast? = some c → isTrailPunct c = false) : stripTrailingPunct l = l := by
  unfold stripTrailingPunct
  rw [dropWhile_id_of_head, List.reverse_reverse]
  intro c hc
  rw [List.head?_reverse] at hc
  exact h c hc

theorem replaceRunsAux_switch {p : Char → Bool} {l : List Char}
    (h : ∀ c, l.head? = some c → p c = false) :
    replaceRunsAux p true l = replaceRunsAux p false l := by
  cases l with
  | nil => rfl
  | cons x t =>
    unfold replaceRunsAux
    rw [if_neg (by rw [h x rfl]; simp), if_neg (by rw [h x rfl]; simp)]

theorem collapse_id :
    ∀ {l : List Char}, (∀ c ∈ l, isJsWhitespace c = true → c = ' ') →
      List.Chain' noAdjWs l → replaceRuns isJsWhitespace l = l := by
  intro l
  induction l with
  | nil => intro _ _; rfl
  | cons x t ih =>
    intro hsp hch
    rw [List.chain'_cons'] at hch
    unfold replaceRuns replaceRunsAux
    by_cases hx : isJsWhitespace x = true
    · rw [if_pos hx]
      have hx' : x = ' ' := hsp x (List.mem_cons_self x t) hx
      have hhead : ∀ c, t.head? = some c → isJsWhitespace c = false := by
        intro c hc
        rcases hch.1 c hc with h' | h'
        · rw [hx] at h'; cases h'
        · exact h'
      rw [replaceRunsAux_switch hhead]
      have ht : replaceRunsAux isJsWhitespace false t = t :=
        ih (fun c hc => hsp c (List.mem_cons_of_mem x hc)) hch.2
      rw [ht, hx']
      simp
    · rw [if_neg hx]
      have ht : replaceRunsAux isJsWhitespace false t = t :=
        ih (fun c hc => hsp c (List.mem_cons_of_mem x hc)) hch.2
      rw [ht]

/-- Applying the pipeline to a canonical string that does not end in
sentence punctuation is the identity. -/
theorem normalize_id_of_canonical {y : List Char} (hcan : Canonical y)
    (hpunct : ∀ c, y.getLast? = some c → isTrailPunct c = false) :
    normalizeAnswerText y = y := by
  obtain ⟨hclean, hchain, hhead, hlast⟩ := hcan
  unfold normalizeAnswerText
  have e1 : y.map (fun c => if isInvisibleChar c then ' ' else c) = y :=
    map_id_of_fix fun c hc => by
      have h1 : isInvisibleChar c = false := (hclean c hc).1
      simp [h1]
  have e2 : replaceRuns isEmphChar y = y :=
    replaceRunsAux_id_of_none (fun c hc => (hclean c hc).2.1) false
  have e3 : jsTrim y = y := jsTrim_id hhead hlast
  have e4 : replaceRuns isJsWhitespace y = y :=
    collapse_id (fun c hc => (hclean c hc).2.2.2) hchain
  have e5 : y.map jsToLower = y := map_id_of_fix fun c hc => (hclean c hc).2.2.1
  have e6 : stripTrailingPunct y = y := stripTrailingPunct_id hpunct
  rw [e1, e2, e3, e4, e5, e6, e3]
/-- Does the string end with a sentence-punctuation character? -/
def endsTrailPunct (l : List Char) : Bool :=
  match l.getLast? with
  | some c => isTrailPunct c
  | none => false

/-- C2, counterexample: normalization is not idempotent.  For the input
`"? !"` the first pass strips only the final `"!"` and the closing trim
then exposes `"?"` at the end, so a second pass strips further:
`normalize "? !" = "?"` but `normalize "?" = ""`. -/
theorem normalize_not_idempotent_cex :
    normalizeAnswerText (normalizeAnswerText "? !".toList) ≠
      normalizeAnswerText "? !".toList := by decide

/-- C2, amended: the pipeline is idempotent on every input whose normalized
form does not end in a sentence-punctuation character (`.?!…`); the
trailing-punctuation strip plus final trim is the only source of
non-idempotence. -/
theorem normalize_idempotent_unless_trailing_punct (s : List Char)
    (h : endsTrailPunct (normalizeAnswerText s) = false) :
    normalizeAnswerText (normalizeAnswerText s) = normalizeAnswerText s := by
  apply normalize_id_of_canonical (canonical_normalize s)
  intro c hc
  unfold endsTrailPunct at h
  rw [hc] at h
  exact h

theorem normalize_idempotent_unless_trailing_punct_witness :
    endsTrailPunct (normalizeAnswerText "  Dog.  ".toList) = false ∧
    normalizeAnswerText (normalizeAnswerText "  Dog.  ".toList) =
      normalizeAnswerText "  Dog.  ".toList :=
  ⟨by decide, normalize_idempotent_unless_trailing_punct _ (by decide)⟩

/-! ## Words of a normalized string -/

theorem splitWsAux_mem :
    ∀ (s acc w : List Char), (∀ c ∈ acc, isJsWhitespace c = false) →
      w ∈ splitWsAux acc s →
      w ≠ [] ∧ ∀ c ∈ w, isJsWhitespace c = false ∧ (c ∈ acc ∨ c ∈ s) := by
  intro s
  induction s with
  | nil =>
    intro acc w hacc hw
    unfold splitWsAux at hw
    by_cases he : acc.isEmpty = true
    · rw [if_pos he] at hw; simp at hw
    · rw [if_neg he] at hw
      rcases List.mem_cons.mp hw with h | h
      · subst h
        refine ⟨by simpa using (List.isEmpty_eq_false.mp (by simpa using he)), ?_⟩
        intro c hc
        rw [List.mem_reverse] at hc
        exact ⟨hacc c hc, Or.inl hc⟩
      · simp at h
  | cons x t ih =>
    intro acc w hacc hw
    unfold splitWsAux at hw
    by_cases hx : isJsWhitespace x = true
    · rw [if_pos hx] at hw
      by_cases he : acc.isEmpty = true
      · rw [if_pos he] at hw
        have h := ih [] w (by simp) hw
        refine ⟨h.1, fun c hc => ⟨(h.2 c hc).1, ?_⟩⟩
        rcases (h.2 c hc).2 with h' | h'
        · simp at h'
        · exact Or.inr (List.mem_cons_of_mem x h')
      · rw [if_neg he] at hw
        rcases List.mem_cons.mp hw with h | h
        · subst h
          refine ⟨by simpa using (List.isEmpty_eq_false.mp (by simpa using he)), ?_⟩
          intro c hc
          rw [List.mem_reverse] at hc
          exact ⟨hacc c hc, Or.inl hc⟩
        · have h2 := ih [] w (by simp) h
          refine ⟨h2.1, fun c hc => ⟨(h2.2 c hc).1, ?_⟩⟩
          rcases (h2.2 c hc).2 with h' | h'
          · simp at h'
          · exact Or.inr (List.mem_cons_of_mem x h')
    · rw [if_neg hx] at hw
      have hacc' : ∀ c ∈ x :: acc, isJsWhitespace c = false := by
        intro c hc
        rcases List.mem_cons.mp hc with h' | h'
        · rw [h']
          revert hx; cases isJsWhitespace x <;> simp
        · exact hacc c h'
      have h := ih (x :: acc) w hacc' hw
      refine ⟨h.1, fun c hc => ⟨(h.2 c hc).1, ?_⟩⟩
      rcases (h.2 c hc).2 with h' | h'
      · rcases List.mem_cons.mp h' with h'' | h''
        · exact Or.inr (h'' ▸ List.mem_cons_self x t)
        · exact Or.inl h''
      · exact Or.inr (List.mem_cons_of_mem x h')

/-- Every word returned by `splitWs` is non-empty, whitespace-free, and
drawn from the input's characters. -/
theorem splitWs_mem {s w : List Char} (hw : w ∈ splitWs s) :
    w ≠ [] ∧ ∀ c ∈ w, isJsWhitespace c = false ∧ c ∈ s := by
  have h := splitWsAux_mem s [] w (by simp) hw
  refine ⟨h.1, fun c hc => ⟨(h.2 c hc).1, ?_⟩⟩
  rcases (h.2 c hc).2 with h' | h'
  · simp at h'
  · exact h'

theorem splitWsAux_chunk :
    ∀ (v acc rest : List Char), (∀ c ∈ v, isJsWhitespace c = false) →
      splitWsAux acc (v ++ rest) = splitWsAux (v.reverse ++ acc) rest := by
  intro v
  induction v with
  | nil => intro acc rest _; simp
  | cons c v' ih =>
    intro acc rest hv
    have hc : isJsWhitespace c = false := hv c (List.mem_cons_self c v')
    have step : splitWsAux acc (c :: (v' ++ rest)) = splitWsAux (c :: acc) (v' ++ rest) := by
      show (if isJsWhitespace c = true then
          if acc.isEmpty = true then splitWsAux [] (v' ++ rest)
          else acc.reverse :: splitWsAux [] (v' ++ rest)
        else splitWsAux (c :: acc) (v' ++ rest)) = splitWsAux (c :: acc) (v' ++ rest)
      rw [if_neg (by rw [hc]; simp)]
    show splitWsAux acc (c :: (v' ++ rest)) = _
    rw [step, ih (c :: acc) rest fun d hd => hv d (List.mem_cons_of_mem c hd)]
    congr 1
    simp

theorem splitWsAux_all_nonws {q : List Char} (hq : q ≠ [])
    (hqc : ∀ c ∈ q, isJsWhitespace c = false) : splitWsAux [] q = [q] := by
  have h := splitWsAux_chunk q [] [] hqc
  rw [List.append_nil, List.append_nil] at h
  rw [h]
  unfold splitWsAux
  rw [if_neg (by simpa using hq)]
  rw [List.reverse_reverse]

/-- `splitWs` of `word ++ " " ++ word` is the two words. -/
theorem splitWs_word_space_word {w q : List Char} (hw : w ≠ [])
    (hwc : ∀ c ∈ w, isJsWhitespace c = false) (hq : q ≠ [])
    (hqc : ∀ c ∈ q, isJsWhitespace c = false) :
    splitWs (w ++ ' ' :: q) = [w, q] := by
  unfold splitWs
  rw [splitWsAux_chunk w [] (' ' :: q) hwc, List.append_nil]
  unfold splitWsAux
  rw [if_pos (by decide)]
  rw [if_neg (by simpa using hw)]
  rw [List.reverse_reverse, splitWsAux_all_nonws hq hqc]

theorem chain'_of_all_nonws {l : List Char}
    (h : ∀ c ∈ l, isJsWhitespace c = false) : List.Chain' noAdjWs l := by
  induction l with
  | nil => simp
  | cons x t ih =>
    rw [List.chain'_cons']
    refine ⟨fun y _ => Or.inl (h x (List.mem_cons_self x t)), ?_⟩
    exact ih fun c hc => h c (List.mem_cons_of_mem x hc)

/-- `word ++ " " ++ word` over clean whitespace-free words is canonical. -/
theorem canonical_word_space_word {w q : List Char} (hw : w ≠ [])
    (hwclean : ∀ c ∈ w, cleanChar c) (hwc : ∀ c ∈ w, isJsWhitespace c = false)
    (hq : q ≠ []) (hqclean : ∀ c ∈ q, cleanChar c)
    (hqc : ∀ c ∈ q, isJsWhitespace c = false) :
    Canonical (w ++ ' ' :: q) := by
  have hspace : cleanChar ' ' := ⟨by decide, by decide, by decide, fun _ => rfl⟩
  refine ⟨?_, ?_, ?_, ?_⟩
  · intro c hc
    rcases List.mem_append.mp hc with h | h
    · exact hwclean c h
    · rcases List.mem_cons.mp h with h' | h'
      · rw [h']; exact hspace
      · exact hqclean c h'
  · rw [List.chain'_append]
    refine ⟨chain'_of_all_nonws hwc, ?_, ?_⟩
    · rw [List.chain'_cons']
      refine ⟨fun y hy => Or.inr ?_, chain'_of_all_nonws hqc⟩
      cases q with
      | nil => simp at hy
      | cons z q' =>
        simp only [List.head?_cons, Option.mem_def, Option.some_inj] at hy
        rw [← hy]
        exact hqc z (List.mem_cons_self z q')
    · intro x hx y _
      exact Or.inl (hwc x (List.mem_of_getLast?_eq_some hx))
  · intro c hc
    cases w with
    | nil => exact absurd rfl hw
    | cons a w' =>
      simp only [List.cons_append, List.head?_cons, Option.some_inj] at hc
      rw [← hc]
      exact hwc a (List.mem_cons_self a w')
  · intro c hc
    cases q with
    | nil => exact absurd rfl hq
    | cons z q' =>
      rw [List.getLast?_append, List.getLast?_cons_cons] at hc
      cases hzq : (z :: q').getLast? with
      | none => simp at hzq
      | some d =>
        rw [hzq] at hc
        simp only [Option.or, Option.some_inj] at hc
        rw [← hc]
        exact hqc d (List.mem_of_getLast?_eq_some hzq)

set_option maxHeartbeats 2000000 in
/-- C4: for every correct answer whose normalized form has at least two
words, (1) every user answer accepted in exact mode is accepted in contains
mode, and (2) some user answer is accepted by contains but rejected by
exact — contains is a strict superset of exact for multi-word correct
answers. -/
theorem contains_superset_of_exact (correct : List Char)
    (hmulti : 2 ≤ (splitWs (normalizeAnswerText correct)).length) :
    (∀ user : List Char, (compareAnswers user correct false).isCorrect = true →
      (compareAnswers user correct true).isCorrect = true) ∧
    (∃ user : List Char, (compareAnswers user correct true).isCorrect = true ∧
      (compareAnswers user correct false).isCorrect = false) := by
  have hcanon := canonical_normalize correct
  obtain ⟨w₀, rest, hsplit⟩ : ∃ w₀ rest,
      splitWs (normalizeAnswerText correct) = w₀ :: rest := by
    cases h : splitWs (normalizeAnswerText correct) with
    | nil => rw [h] at hmulti; simp at hmulti
    | cons a l => exact ⟨a, l, rfl⟩
  have hw₀mem : w₀ ∈ splitWs (normalizeAnswerText correct) := by
    rw [hsplit]; exact List.mem_cons_self _ _
  have hw₀ := splitWs_mem hw₀mem
  constructor
  · intro user hex
    have hnu : normalizeAnswerText user = normalizeAnswerText correct :=
      eq_of_beq hex
    have hgoal : (compareAnswers user correct true).isCorrect =
        ((splitWs (normalizeAnswerText user)).any fun uw =>
          (splitWs (normalizeAnswerText correct)).any fun cw => uw == cw) := rfl
    rw [hgoal, hnu, hsplit]
    simp
  · have hwclean : ∀ c ∈ w₀, cleanChar c := fun c hc => hcanon.1 c ((hw₀.2 c hc).2)
    have hwws : ∀ c ∈ w₀, isJsWhitespace c = false := fun c hc => (hw₀.2 c hc).1
    have mk : ∀ q : List Char, q ≠ [] → (∀ c ∈ q, cleanChar c) →
        (∀ c ∈ q, isJsWhitespace c = false) → (∀ c ∈ q, isTrailPunct c = false) →
        (compareAnswers (w₀ ++ ' ' :: q) correct true).isCorrect = true ∧
        normalizeAnswerText (w₀ ++ ' ' :: q) = w₀ ++ ' ' :: q := by
      intro q hq hqclean hqws hqp
      have hcanu : Canonical (w₀ ++ ' ' :: q) :=
        canonical_word_space_word hw₀.1 hwclean hwws hq hqclean hqws
      have hnorm : normalizeAnswerText (w₀ ++ ' ' :: q) = w₀ ++ ' ' :: q := by
        apply normalize_id_of_canonical hcanu
        intro c hc
        cases q with
        | nil => exact absurd rfl hq
        | cons z q' =>
          rw [List.getLast?_append, List.getLast?_cons_cons] at hc
          cases hzq : (z :: q').getLast? with
          | none => simp at hzq
          | some d =>
            rw [hzq] at hc
            simp only [Option.or, Option.some_inj] at hc
            rw [← hc]
            exact hqp d (List.mem_of_getLast?_eq_some hzq)
      refine ⟨?_, hnorm⟩
      have hgoal : (compareAnswers (w₀ ++ ' ' :: q) correct true).isCorrect =
          ((splitWs (normalizeAnswerText (w₀ ++ ' ' :: q))).any fun uw =>
            (splitWs (normalizeAnswerText correct)).any fun cw => uw == cw) := rfl
      rw [hgoal, hnorm, splitWs_word_space_word hw₀.1 hwws hq hqws, hsplit]
      simp
    have hq2 := mk ['q', 'q'] (by decide) (by decide) (by decide) (by decide)
    have hq3 := mk ['q', 'q', 'q'] (by decide) (by decide) (by decide) (by decide)
    by_cases hcase : w₀ ++ ' ' :: ['q', 'q'] = normalizeAnswerText correct
    · refine ⟨w₀ ++ ' ' :: ['q', 'q', 'q'], hq3.1, ?_⟩
      have hne : w₀ ++ ' ' :: ['q', 'q', 'q'] ≠ normalizeAnswerText correct := by
        intro h
        have hlen := congrArg List.length (h.trans hcase.symm)
        simp at hlen
      have hgoal : (compareAnswers (w₀ ++ ' ' :: ['q', 'q', 'q']) correct false).isCorrect =
          (normalizeAnswerText (w₀ ++ ' ' :: ['q', 'q', 'q']) ==
            normalizeAnswerText correct) := rfl
      rw [hgoal, hq3.2]
      exact beq_eq_false_iff_ne.mpr hne
    · refine ⟨w₀ ++ ' ' :: ['q', 'q'], hq2.1, ?_⟩
      have hgoal : (compareAnswers (w₀ ++ ' ' :: ['q', 'q']) correct false).isCorrect =
          (normalizeAnswerText (w₀ ++ ' ' :: ['q', 'q']) ==
            normalizeAnswerText correct) := rfl
      rw [hgoal, hq2.2]
      exact beq_eq_false_iff_ne.mpr hcase

theorem contains_superset_of_exact_witness :
    2 ≤ (splitWs (normalizeAnswerText "siniak stłuczenie sińce".toList)).length ∧
    ((∀ user : List Char,
        (compareAnswers user "siniak stłuczenie sińce".toList false).isCorrect = true →
        (compareAnswers user "siniak stłuczenie sińce".toList true).isCorrect = true) ∧
      (∃ user : List Char,
        (compareAnswers user "siniak stłuczenie sińce".toList true).isCorrect = true ∧
        (compareAnswers user "siniak stłuczenie sińce".toList false).isCorrect = false)) :=
  ⟨by decide, contains_superset_of_exact "siniak stłuczenie sińce".toList (by decide)⟩

/-! ## Association-list record lemmas -/

theorem any_key_iff_lookup {β : Type} (m : List (Nat × β)) (k : Nat) :
    m.any (fun e => e.1 == k) = (List.lookup k m).isSome := by
  induction m with
  | nil => rfl
  | cons e t ih =>
    rcases e with ⟨a, b⟩
    simp only [List.any_cons, List.lookup]
    by_cases h : a = k
    · subst h
      simp
    · have h1 : (a == k) = false := by simpa using h
      have h2 : (k == a) = false := by simpa using Ne.symm h
      rw [h1, h2]
      simpa using ih

theorem lookup_mem {β : Type} :
    ∀ {m : List (Nat × β)} {k : Nat} {v : β}, List.lookup k m = some v → (k, v) ∈ m := by
  intro m
  induction m with
  | nil => intro k v h; simp [List.lookup] at h
  | cons e t ih =>
    intro k v h
    rcases e with ⟨a, b⟩
    simp only [List.lookup] at h
    by_cases hk : k = a
    · subst hk
      rw [beq_self_eq_true] at h
      simp only [Option.some_inj] at h
      subst h
      exact List.mem_cons_self _ _
    · rw [show (k == a) = false by simpa using hk] at h
      exact List.mem_cons_of_mem _ (ih h)

theorem mem_setRecord {β : Type} {m : List (Nat × β)} {k k' : Nat} {v v' : β}
    (h : (k', v') ∈ setRecord m k v) : (k' = k ∧ v' = v) ∨ (k', v') ∈ m := by
  unfold setRecord at h
  by_cases hany : m.any (fun e => e.1 == k) = true
  · rw [if_pos hany] at h
    rcases List.mem_map.mp h with ⟨e, hem, hee⟩
    by_cases he : (e.1 == k) = true
    · rw [if_pos he] at hee
      injection hee with h1 h2
      exact Or.inl ⟨h1.symm, h2.symm⟩
    · rw [if_neg he] at hee
      exact Or.inr (hee ▸ hem)
  · rw [if_neg hany] at h
    rcases List.mem_append.mp h with h' | h'
    · exact Or.inr h'
    · have h'' := List.mem_singleton.mp h'
      injection h'' with h1 h2
      exact Or.inl ⟨h1, h2⟩

theorem map_setkey_id {β : Type} {t : List (Nat × β)} {k : Nat} {v : β}
    (h : ∀ e ∈ t, e.1 ≠ k) :
    t.map (fun e => if e.1 == k then (k, v) else e) = t := by
  have h2 : ∀ e ∈ t, (fun e => if e.1 == k then (k, v) else e) e = id e := by
    intro e he
    simp only [id]
    rw [if_neg (by simpa using h e he)]
  rw [List.map_congr_left h2, List.map_id]

theorem setRecord_cons_ne {β : Type} {e : Nat × β} {t : List (Nat × β)} {k : Nat} {v : β}
    (h : (e.1 == k) = false) : setRecord (e :: t) k v = e :: setRecord t k v := by
  unfold setRecord
  by_cases ht : t.any (fun e => e.1 == k) = true
  · rw [if_pos (by simp [List.any_cons, ht]), if_pos ht, List.map_cons, if_neg (by simp [h])]
  · rw [if_neg (by simp [List.any_cons, h, ht]), if_neg ht]
    rfl

theorem keys_setRecord_of_any {β : Type} {m : List (Nat × β)} {k : Nat} {v : β}
    (h : m.any (fun e => e.1 == k) = true) :
    (setRecord m k v).map Prod.fst = m.map Prod.fst := by
  unfold setRecord
  rw [if_pos h, List.map_map]
  apply List.map_congr_left
  intro e _
  by_cases he : (e.1 == k) = true
  · simp only [Function.comp, if_pos he]
    exact (eq_of_beq he).symm
  · simp only [Function.comp, if_neg he]

theorem keys_setRecord_of_not {β : Type} {m : List (Nat × β)} {k : Nat} {v : β}
    (h : ¬ m.any (fun e => e.1 == k) = true) :
    (setRecord m k v).map Prod.fst = m.map Prod.fst ++ [k] := by
  unfold setRecord
  rw [if_neg h, List.map_append]
  rfl

theorem nodup_keys_setRecord {β : Type} {m : List (Nat × β)} {k : Nat} {v : β}
    (hk : (m.map Prod.fst).Nodup) : ((setRecord m k v).map Prod.fst).Nodup := by
  by_cases hany : m.any (fun e => e.1 == k) = true
  · rw [keys_setRecord_of_any hany]; exact hk
  · rw [keys_setRecord_of_not hany]
    rw [List.nodup_append]
    refine ⟨hk, List.nodup_singleton k, ?_⟩
    intro a ha hb
    rcases List.mem_singleton.mp hb with rfl
    rcases List.mem_map.mp ha with ⟨e, hem, hee⟩
    exact hany (List.any_eq_true.mpr ⟨e, hem, by simpa using hee⟩)

theorem lookup_setRecord_self {β : Type} :
    ∀ {m : List (Nat × β)} {k : Nat} {v : β},
      List.lookup k (setRecord m k v) = some v := by
  intro m
  induction m with
  | nil => intro k v; simp [setRecord, List.lookup]
  | cons e t ih =>
    intro k v
    by_cases he : (e.1 == k) = true
    · have hk : k = e.1 := (eq_of_beq he).symm
      unfold setRecord
      rw [if_pos (by simp [List.any_cons, he])]
      rw [List.map_cons, if_pos he]
      simp [List.lookup]
    · rw [Bool.not_eq_true] at he
      rw [setRecord_cons_ne he]
      simp only [List.lookup]
      rw [show (k == e.1) = false by
        simp only [beq_eq_false_iff_ne, ne_eq] at he ⊢
        exact fun h => he h.symm]
      exact ih

theorem lookup_setRecord_ne {β : Type} {k k' : Nat} (hne : k' ≠ k) :
    ∀ {m : List (Nat × β)} {v : β},
      List.lookup k' (setRecord m k v) = List.lookup k' m := by
  intro m
  induction m with
  | nil =>
    intro v
    simp [setRecord, List.lookup, show (k' == k) = false by simpa using hne]
  | cons e t ih =>
    intro v
    by_cases he : (e.1 == k) = true
    · have hk : e.1 = k := eq_of_beq he
      unfold setRecord
      rw [if_pos (by simp [List.any_cons, he])]
      rw [List.map_cons, if_pos he]
      simp only [List.lookup]
      rw [show (k' == k) = false by simpa using hne,
        show (k' == e.1) = false by simpa using hk ▸ hne]
      -- remaining: lookup over t.map f = lookup over t, by congruence on keys:
      -- entries of t with key k never match k', and mapping only touches those
      clear ih
      induction t with
      | nil => rfl
      | cons e' t' ih' =>
        simp only [List.map_cons]
        by_cases he' : (e'.1 == k) = true
        · rw [if_pos he']
          simp only [List.lookup]
          rw [show (k' == k) = false by simpa using hne,
            show (k' == e'.1) = false by simpa using (eq_of_beq he') ▸ hne]
          exact ih'
        · rw [if_neg he']
          simp only [List.lookup]
          by_cases hk' : (k' == e'.1) = true
          · rw [hk']
          · rw [show (k' == e'.1) = false by simpa using hk']
            exact ih'
    · rw [Bool.not_eq_true] at he
      rw [setRecord_cons_ne he]
      simp only [List.lookup]
      by_cases hk' : (k' == e.1) = true
      · rw [hk']
      · rw [show (k' == e.1) = false by simpa using hk']
        exact ih

/-- Number of checked cards stored in the answers record. -/
def checkedCount (answers : List (Nat × CardResultState)) : Nat :=
  (answers.filter fun e => e.2.isChecked).length

theorem checkedCount_cons (e : Nat × CardResultState) (t : List (Nat × CardResultState)) :
    checkedCount (e :: t) = (if e.2.isChecked then 1 else 0) + checkedCount t := by
  unfold checkedCount
  rw [List.filter_cons]
  by_cases h : e.2.isChecked = true
  · rw [if_pos h, if_pos h, List.length_cons]
    omega
  · rw [Bool.not_eq_true] at h
    rw [h]
    simp

theorem checkedCount_setRecord {k : Nat} {v : CardResultState} :
    ∀ {m : List (Nat × CardResultState)}, (m.map Prod.fst).Nodup →
      (checkedCount (setRecord m k v) : Int) =
        (checkedCount m : Int) + (if v.isChecked then 1 else 0) -
          (match List.lookup k m with
           | some r => if r.isChecked then 1 else 0
           | none => 0) := by
  intro m
  induction m with
  | nil =>
    intro _
    cases hv : v.isChecked <;>
      simp [setRecord, checkedCount, List.filter, List.lookup, hv]
  | cons e t ih =>
    intro hnd
    rw [List.map_cons, List.nodup_cons] at hnd
    by_cases he : (e.1 == k) = true
    · have hk : e.1 = k := eq_of_beq he
      unfold setRecord
      rw [if_pos (by simp [List.any_cons, he])]
      rw [List.map_cons, if_pos he]
      have htid : t.map (fun e => if e.1 == k then (k, v) else e) = t := by
        apply map_setkey_id
        intro e' he'
        intro hcon
        exact hnd.1 (by rw [hk, ← hcon]; exact List.mem_map.mpr ⟨e', he', rfl⟩)
      rw [htid, checkedCount_cons, checkedCount_cons]
      simp only [List.lookup, show (k == e.1) = true by simpa using hk.symm]
      push_cast
      cases hv : v.isChecked <;> cases hev : e.2.isChecked <;> simp [hv, hev] <;> omega
    · rw [Bool.not_eq_true] at he
      rw [setRecord_cons_ne he, checkedCount_cons, checkedCount_cons]
      simp only [List.lookup, show (k == e.1) = false by
        simp only [beq_eq_false_iff_ne, ne_eq] at he ⊢
        exact fun h => he h.symm]
      push_cast
      rw [ih hnd.2]
      cases List.lookup k t <;> cases hv : v.isChecked <;> cases hev : e.2.isChecked <;>
        simp [hv, hev] <;> omega

theorem setRecord_self_id {β : Type} :
    ∀ {m : List (Nat × β)} {k : Nat} {r : β}, (m.map Prod.fst).Nodup →
      List.lookup k m = some r → setRecord m k r = m := by
  intro m
  induction m with
  | nil => intro k r _ h; simp [List.lookup] at h
  | cons e t ih =>
    intro k r hnd h
    rw [List.map_cons, List.nodup_cons] at hnd
    simp only [List.lookup] at h
    by_cases hk : (k == e.1) = true
    · rw [hk] at h
      simp only [Option.some_inj] at h
      have hek : e.1 = k := (eq_of_beq hk).symm
      unfold setRecord
      rw [if_pos (by simp [List.any_cons, show (e.1 == k) = true by simpa using hek])]
      rw [List.map_cons, if_pos (by simpa using hek)]
      have htid : t.map (fun e' => if e'.1 == k then (k, r) else e') = t := by
        apply map_setkey_id
        intro e' he' hcon
        exact hnd.1 (by rw [hek, ← hcon]; exact List.mem_map.mpr ⟨e', he', rfl⟩)
      rw [htid]
      congr 1
      rcases e with ⟨a, b⟩
      simp only at hek h
      rw [hek, h]
    · rw [Bool.not_eq_true] at hk
      rw [hk] at h
      rw [setRecord_cons_ne (by
        simp only [beq_eq_false_iff_ne, ne_eq] at hk ⊢
        exact fun hcon => hk hcon.symm)]
      rw [ih hnd.2 h]

/-! ## Recomputation of the incorrect set -/

theorem foldl_recompute_congr {answers answers' : List (Nat × CardResultState)} :
    ∀ (round : List LearnPhraseDTO) (m : List (Nat × LearnPhraseDTO)),
      (∀ p ∈ round, checkedIncorrectB (List.lookup p.id answers) =
        checkedIncorrectB (List.lookup p.id answers')) →
      round.foldl (fun m p =>
        if checkedIncorrectB (List.lookup p.id answers) then setRecord m p.id p else m) m =
      round.foldl (fun m p =>
        if checkedIncorrectB (List.lookup p.id answers') then setRecord m p.id p else m) m := by
  intro round
  induction round with
  | nil => intro m _; rfl
  | cons p t ih =>
    intro m h
    simp only [List.foldl_cons]
    rw [h p (List.mem_cons_self p t)]
    exact ih _ fun q hq => h q (List.mem_cons_of_mem p hq)

theorem recompute_congr {round : List LearnPhraseDTO}
    {answers answers' : List (Nat × CardResultState)}
    (h : ∀ p ∈ round, checkedIncorrectB (List.lookup p.id answers) =
      checkedIncorrectB (List.lookup p.id answers')) :
    recomputeIncorrect round answers = recomputeIncorrect round answers' := by
  unfold recomputeIncorrect
  rw [foldl_recompute_congr round [] h]

theorem recompute_foldl_aux {answers : List (Nat × CardResultState)} :
    ∀ (round : List LearnPhraseDTO) (m : List (Nat × LearnPhraseDTO)),
      (round.map LearnPhraseDTO.id).Nodup →
      (∀ p ∈ round, m.any (fun e => e.1 == p.id) = false) →
      round.foldl (fun m p =>
        if checkedIncorrectB (List.lookup p.id answers) then setRecord m p.id p else m) m =
      m ++ (round.filter fun p => checkedIncorrectB (List.lookup p.id answers)).map
        (fun p => (p.id, p)) := by
  intro round
  induction round with
  | nil => intro m _ _; simp
  | cons p t ih =>
    intro m hnd hdisj
    rw [List.map_cons, List.nodup_cons] at hnd
    simp only [List.foldl_cons, List.filter_cons]
    by_cases hc : checkedIncorrectB (List.lookup p.id answers) = true
    · rw [if_pos hc, if_pos hc]
      have hset : setRecord m p.id p = m ++ [(p.id, p)] := by
        unfold setRecord
        rw [if_neg (by rw [hdisj p (List.mem_cons_self p t)]; simp)]
      rw [hset]
      rw [ih (m ++ [(p.id, p)]) hnd.2 ?_]
      · rw [List.map_cons, List.append_assoc]
        rfl
      · intro q hq
        rw [List.any_append]
        rw [hdisj q (List.mem_cons_of_mem p hq)]
        simp only [List.any_cons, List.any_nil, Bool.false_or, Bool.or_false]
        have : p.id ≠ q.id := by
          intro hcon
          exact hnd.1 (hcon ▸ List.mem_map.mpr ⟨q, hq, rfl⟩)
        simpa using this
    · rw [Bool.not_eq_true] at hc
      rw [hc]
      simp only [Bool.false_eq_true, if_false]
      exact ih m hnd.2 fun q hq => hdisj q (List.mem_cons_of_mem p hq)

theorem recompute_eq_filter {round : List LearnPhraseDTO}
    {answers : List (Nat × CardResultState)}
    (hnd : (round.map LearnPhraseDTO.id).Nodup) :
    recomputeIncorrect round answers =
      round.filter fun p => checkedIncorrectB (List.lookup p.id answers) := by
  unfold recomputeIncorrect
  rw [recompute_foldl_aux round [] hnd (fun p _ => rfl)]
  rw [List.nil_append, List.map_map]
  have hid : (Prod.snd ∘ fun p : LearnPhraseDTO => (p.id, p)) = id := rfl
  rw [hid, List.map_id]

theorem mem_recompute_iff {round : List LearnPhraseDTO}
    {answers : List (Nat × CardResultState)} {p : LearnPhraseDTO}
    (hnd : (round.map LearnPhraseDTO.id).Nodup) :
    p ∈ recomputeIncorrect round answers ↔ p ∈ round ∧
      ∃ r, List.lookup p.id answers = some r ∧ r.isChecked = true ∧
        r.isCorrect = some false := by
  rw [recompute_eq_filter hnd, List.mem_filter]
  constructor
  · rintro ⟨h1, h2⟩
    refine ⟨h1, ?_⟩
    unfold checkedIncorrectB at h2
    cases hl : List.lookup p.id answers with
    | none => rw [hl] at h2; simp at h2
    | some r =>
      rw [hl] at h2
      simp only [Bool.and_eq_true, beq_iff_eq] at h2
      exact ⟨r, rfl, h2.1, h2.2⟩
  · rintro ⟨h1, r, hr, hc, hic⟩
    refine ⟨h1, ?_⟩
    unfold checkedIncorrectB
    rw [hr]
    simp only [hc, hic]
    simp

theorem recompute_empty (round : List LearnPhraseDTO) :
    recomputeIncorrect round [] = [] := by
  unfold recomputeIncorrect
  have h : round.foldl (fun m p =>
      if checkedIncorrectB (List.lookup p.id []) then setRecord m p.id p else m) [] =
      ([] : List (Nat × LearnPhraseDTO)) := by
    induction round with
    | nil => rfl
    | cons p t ih =>
      simp only [List.foldl_cons, List.lookup, checkedIncorrectB]
      exact ih
  rw [h]
  rfl

/-! ## Session invariant -/

/-- The comparison `handleCheckAnswer` computes for a card with stored
result `r` (the frozen answer and, in word-bank mode, the frozen token
selection). -/
def cardComparison (s : LearnSessionState) (phrase : LearnPhraseDTO)
    (r : CardResultState) : CompareResult :=
  match getEffectiveInputMode s.answerInputMode phrase s.direction with
  | .word_bank =>
    compareWordBankAnswer (r.selectedTokens.getD []) (getCorrectAnswer phrase s.direction)
  | .text =>
    compareAnswers r.userAnswer (getCorrectAnswer phrase s.direction) s.useContainsMode

/-- A checked card's stored result is exactly what re-running the check on
its frozen answer would produce. -/
def Coherent (s : LearnSessionState) (phrase : LearnPhraseDTO)
    (r : CardResultState) : Prop :=
  r.isCorrect = some (cardComparison s phrase r).isCorrect ∧
  r.backendResult = some (cardComparison s phrase r) ∧
  (getEffectiveInputMode s.answerInputMode phrase s.direction = .word_bank →
    r.userAnswer = joinSpace (r.selectedTokens.getD [])) ∧
  r.correctAnswer = getCorrectAnswer phrase s.direction

/-- The state invariant maintained by every in-round operation after a
successful `start()`. -/
structure SessionInv (s : LearnSessionState) : Prop where
  roundNe : s.currentRound ≠ []
  idxLt : s.currentIndex + 1 ≤ s.currentRound.length
  roundNodup : (s.currentRound.map LearnPhraseDTO.id).Nodup
  keysNodup : (s.answers.map Prod.fst).Nodup
  counts : s.correctCount + s.incorrectCount = (checkedCount s.answers : Int)
  checkedSeen : ∀ k r, (k, r) ∈ s.answers → r.isChecked = true →
    k ∈ (s.currentRound.take (s.currentIndex + 1)).map LearnPhraseDTO.id
  incorrectEq : s.incorrectPhrases = recomputeIncorrect s.currentRound s.answers
  coherent : ∀ k r, (k, r) ∈ s.answers → r.isChecked = true →
    ∀ p ∈ s.currentRound, p.id = k → Coherent s p r

theorem mem_take_succ {α : Type} :
    ∀ {l : List α} {n : Nat} {a : α}, a ∈ l.take n → a ∈ l.take (n + 1) := by
  intro l
  induction l with
  | nil => intro n a h; simp at h
  | cons x t ih =>
    intro n a h
    cases n with
    | zero => simp at h
    | succ n' =>
      rw [List.take_succ_cons] at h ⊢
      rcases List.mem_cons.mp h with h' | h'
      · exact h' ▸ List.mem_cons_self _ _
      · exact List.mem_cons_of_mem _ (ih h')

theorem currentPhraseOf_getElem {s : LearnSessionState} {p : LearnPhraseDTO}
    (h : currentPhraseOf s = some p) : s.currentRound[s.currentIndex]? = some p := by
  unfold currentPhraseOf at h
  by_cases hp : s.phase = .in_progress
  · rwa [if_pos hp] at h
  · rw [if_neg hp] at h; cases h

theorem inv_start (cfg : SessionConfig) (tape : Nat → Nat)
    (phrases : List LearnPhraseDTO) (hne : phrases ≠ [])
    (hids : (phrases.map LearnPhraseDTO.id).Nodup) :
    SessionInv (startSession cfg tape phrases) := by
  unfold startSession startRound
  rw [if_neg (by simpa using hne)]
  have hround : ∀ round : List LearnPhraseDTO, round.Perm phrases →
      round ≠ [] ∧ (round.map LearnPhraseDTO.id).Nodup := by
    intro round hperm
    constructor
    · intro hcon
      rw [hcon] at hperm
      exact hne hperm.nil_eq.symm
    · exact ((hperm.map LearnPhraseDTO.id).nodup_iff).mpr hids
  have hkey := hround (if cfg.shuffle then shuffleArray tape phrases else phrases)
    (by cases h : cfg.shuffle with
        | true => simpa [h] using shuffleArray_perm tape phrases
        | false => simpa [h] using List.Perm.refl phrases)
  refine ⟨hkey.1, ?_, hkey.2, by simp, by simp [checkedCount], ?_, ?_, ?_⟩
  · have : (if cfg.shuffle then shuffleArray tape phrases else phrases).length ≠ 0 := by
      intro hcon
      exact hkey.1 (List.length_eq_zero.mp hcon)
    simpa using Nat.one_le_iff_ne_zero.mpr this
  · intro k r hmem _
    simp at hmem
  · exact (recompute_empty _).symm
  · intro k r hmem
    simp at hmem

theorem inv_setEntry {s : LearnSessionState} {k : Nat} {e : CardResultState}
    (hInv : SessionInv s)
    (hprev : ∀ r, List.lookup k s.answers = some r → r.isChecked = false)
    (hech : e.isChecked = false) :
    SessionInv { s with answers := setRecord s.answers k e } := by
  obtain ⟨h1, h2, h3, h4, h5, h6, h7, h8⟩ := hInv
  refine ⟨h1, h2, h3, nodup_keys_setRecord h4, ?_, ?_, ?_, ?_⟩
  · show s.correctCount + s.incorrectCount = (checkedCount (setRecord s.answers k e) : Int)
    rw [checkedCount_setRecord h4, hech]
    cases hl : List.lookup k s.answers with
    | none => simpa using h5
    | some r =>
      simpa [hprev r hl] using h5
  · intro k' r' hmem hch
    rcases mem_setRecord hmem with ⟨_, hr'⟩ | hold
    · rw [hr', hech] at hch; cases hch
    · exact h6 _ _ hold hch
  · show s.incorrectPhrases = recomputeIncorrect s.currentRound (setRecord s.answers k e)
    rw [h7]
    apply recompute_congr
    intro p _
    by_cases hpk : p.id = k
    · rw [hpk, lookup_setRecord_self]
      cases hl : List.lookup k s.answers with
      | none => simp [checkedIncorrectB, hech]
      | some r => simp [checkedIncorrectB, hech, hprev r hl]
    · rw [lookup_setRecord_ne hpk]
  · intro k' r' hmem hch p hp hpid
    rcases mem_setRecord hmem with ⟨_, hr'⟩ | hold
    · rw [hr', hech] at hch; cases hch
    · exact h8 _ _ hold hch p hp hpid

theorem inv_setText (v : List Char) {s : LearnSessionState} (hInv : SessionInv s) :
    SessionInv (handleUserAnswerChange v s) := by
  unfold handleUserAnswerChange
  cases hcp : currentPhraseOf s with
  | none => exact hInv
  | some phrase =>
    dsimp only
    by_cases hg : ((List.lookup phrase.id s.answers).map CardResultState.isChecked).getD
        false = true
    · rw [if_pos hg]; exact hInv
    · rw [if_neg hg]
      rw [Bool.not_eq_true] at hg
      refine inv_setEntry hInv ?_ hg
      intro r hr
      rw [hr] at hg
      simpa using hg

theorem inv_selectToken (tok : List Char) {s : LearnSessionState} (hInv : SessionInv s) :
    SessionInv (handleWordBankTokenSelect tok s) := by
  unfold handleWordBankTokenSelect
  cases hcp : currentPhraseOf s with
  | none => exact hInv
  | some phrase =>
    dsimp only
    by_cases hg : ((List.lookup phrase.id s.answers).map CardResultState.isChecked).getD
        false = true
    · rw [if_pos hg]; exact hInv
    · rw [if_neg hg]
      rw [Bool.not_eq_true] at hg
      refine inv_setEntry hInv ?_ hg
      intro r hr
      rw [hr] at hg
      simpa using hg

theorem inv_removeToken (i : Nat) {s : LearnSessionState} (hInv : SessionInv s) :
    SessionInv (handleWordBankTokenRemove i s) := by
  unfold handleWordBankTokenRemove
  cases hcp : currentPhraseOf s with
  | none => exact hInv
  | some phrase =>
    dsimp only
    by_cases hg : ((List.lookup phrase.id s.answers).map CardResultState.isChecked).getD
        false = true
    · rw [if_pos hg]; exact hInv
    · rw [if_neg hg]
      rw [Bool.not_eq_true] at hg
      refine inv_setEntry hInv ?_ hg
      intro r hr
      rw [hr] at hg
      simpa using hg

theorem inv_next {s : LearnSessionState} (hInv : SessionInv s) :
    SessionInv (goToNextCard s) := by
  obtain ⟨h1, h2, h3, h4, h5, h6, h7, h8⟩ := hInv
  unfold goToNextCard
  by_cases hph : s.phase ≠ .in_progress
  · rw [if_pos hph]; exact ⟨h1, h2, h3, h4, h5, h6, h7, h8⟩
  · rw [if_neg hph]
    by_cases hlast : s.currentRound.length - 1 ≤ s.currentIndex
    · rw [if_pos hlast]
      exact ⟨h1, h2, h3, h4, h5, h6, h7, h8⟩
    · rw [if_neg hlast]
      refine ⟨h1, by simp only; omega, h3, h4, h5, ?_, h7, h8⟩
      intro k r hmem hch
      have := h6 k r hmem hch
      rcases List.mem_map.mp this with ⟨p, hp, hpk⟩
      exact List.mem_map.mpr ⟨p, mem_take_succ hp, hpk⟩

theorem adjustCounts_sum (cc ic : Int) (w : Bool) (prev : Option Bool) (res : Bool) :
    (adjustCounts cc ic w prev res).1 + (adjustCounts cc ic w prev res).2 =
      cc + ic + (if w then 0 else 1) := by
  unfold adjustCounts
  cases w with
  | false =>
    cases res <;> simp <;> omega
  | true =>
    cases prev with
    | none => simp
    | some b => cases b <;> cases res <;> simp <;> omega

theorem inv_check {s : LearnSessionState} (hInv : SessionInv s) :
    SessionInv (handleCheckAnswer s) := by
  obtain ⟨h1, h2, h3, h4, h5, h6, h7, h8⟩ := hInv
  unfold handleCheckAnswer
  cases hcp : currentPhraseOf s with
  | none => exact ⟨h1, h2, h3, h4, h5, h6, h7, h8⟩
  | some phrase =>
    have hpel := currentPhraseOf_getElem hcp
    have hpmem : phrase ∈ s.currentRound := List.getElem?_mem hpel
    have hptake : phrase ∈ s.currentRound.take (s.currentIndex + 1) :=
      List.getElem?_mem (by rw [List.getElem?_take_of_succ, hpel])
    dsimp only
    refine ⟨h1, h2, h3, nodup_keys_setRecord h4, ?_, ?_, rfl, ?_⟩
    · -- counters
      rw [checkedCount_setRecord h4, adjustCounts_sum]
      cases hl : List.lookup phrase.id s.answers with
      | none =>
        simp only [hl, Option.map_none', Option.getD_none]
        simp
        omega
      | some r =>
        cases hch : r.isChecked with
        | false =>
          simp only [hl, Option.map_some', Option.getD_some, hch]
          simp
          omega
        | true =>
          simp only [hl, Option.map_some', Option.getD_some, hch]
          simp
          omega
    · -- checked cards were visited
      intro k' r' hmem hch
      rcases mem_setRecord hmem with ⟨hk', _⟩ | hold
      · rw [hk']
        exact List.mem_map.mpr ⟨phrase, hptake, rfl⟩
      · exact h6 _ _ hold hch
    · -- coherence
      intro k' r' hmem hch p hp hpid
      rcases mem_setRecord hmem with ⟨hk', hr'⟩ | hold
      · have hpp : p = phrase :=
          List.inj_on_of_nodup_map h3 hp hpmem (by rw [hpid, hk'])
        subst hpp
        subst hr'
        cases heff : getEffectiveInputMode s.answerInputMode p s.direction with
        | text =>
          unfold Coherent cardComparison
          dsimp only
          simp [heff]
        | word_bank =>
          unfold Coherent cardComparison
          dsimp only
          simp [heff]
      · exact h8 _ _ hold hch p hp hpid

theorem inv_op (op : SessionOp) {s : LearnSessionState} (hInv : SessionInv s) :
    SessionInv (applySessionOp op s) := by
  cases op with
  | setText v => exact inv_setText v hInv
  | selectToken t => exact inv_selectToken t hInv
  | removeToken i => exact inv_removeToken i hInv
  | check => exact inv_check hInv
  | skip => exact inv_next hInv
  | next => exact inv_next hInv

theorem inv_ops :
    ∀ (ops : List SessionOp) (s : LearnSessionState), SessionInv s →
      SessionInv (applySessionOps ops s)
  | [], _, h => h
  | op :: t, s, h => inv_ops t _ (inv_op op h)

/-- C1: after `start()` on a non-empty phrase list (with the distinct ids a
phrase store provides) and any sequence of in-round operations,
`correctCount + incorrectCount ≤ currentIndex + 1 ≤ currentRound.length`,
and `incorrectPhrases` is exactly the set of phrases of the round whose
stored result is checked and incorrect. -/
theorem round_invariant (cfg : SessionConfig) (tape : Nat → Nat)
    (phrases : List LearnPhraseDTO) (ops : List SessionOp)
    (hne : phrases ≠ []) (hids : (phrases.map LearnPhraseDTO.id).Nodup) :
    ((applySessionOps ops (startSession cfg tape phrases)).correctCount +
        (applySessionOps ops (startSession cfg tape phrases)).incorrectCount ≤
      ((applySessionOps ops (startSession cfg tape phrases)).currentIndex : Int) + 1 ∧
      (applySessionOps ops (startSession cfg tape phrases)).currentIndex + 1 ≤
        (applySessionOps ops (startSession cfg tape phrases)).currentRound.length) ∧
    (∀ p : LearnPhraseDTO,
      p ∈ (applySessionOps ops (startSession cfg tape phrases)).incorrectPhrases ↔
      p ∈ (applySessionOps ops (startSession cfg tape phrases)).currentRound ∧
        ∃ r, List.lookup p.id (applySessionOps ops (startSession cfg tape phrases)).answers =
            some r ∧ r.isChecked = true ∧ r.isCorrect = some false) := by
  have hInv := inv_ops ops _ (inv_start cfg tape phrases hne hids)
  obtain ⟨h1, h2, h3, h4, h5, h6, h7, h8⟩ := hInv
  constructor
  · refine ⟨?_, h2⟩
    -- the number of checked cards is bounded by the visited positions
    set st := applySessionOps ops (startSession cfg tape phrases) with hst
    have hsub : ((st.answers.filter fun e => e.2.isChecked).map Prod.fst) ⊆
        (st.currentRound.take (st.currentIndex + 1)).map LearnPhraseDTO.id := by
      intro k hk
      rcases List.mem_map.mp hk with ⟨e, hem, hek⟩
      have hmem := List.mem_of_mem_filter hem
      have hch : e.2.isChecked = true := by
        have := List.of_mem_filter hem
        simpa using this
      rcases e with ⟨k₀, r₀⟩
      rcases hek with rfl
      exact h6 _ _ hmem hch
    have hnd : ((st.answers.filter fun e => e.2.isChecked).map Prod.fst).Nodup := by
      have hsl : (st.answers.filter fun e => e.2.isChecked).Sublist st.answers :=
        List.filter_sublist _
      exact (hsl.map Prod.fst).nodup h4
    have hlen := (List.subperm_of_subset hnd hsub).length_le
    rw [List.length_map, List.length_map] at hlen
    have hcnt : checkedCount st.answers ≤ st.currentIndex + 1 := by
      have htk : (st.currentRound.take (st.currentIndex + 1)).length ≤ st.currentIndex + 1 :=
        List.length_take_le _ _
      exact le_trans hlen htk
    rw [h5]
    exact_mod_cast hcnt
  · intro p
    rw [h7]
    exact mem_recompute_iff h3

theorem adjustCounts_noflip (cc ic : Int) (res : Bool) :
    adjustCounts cc ic true (some res) res = (cc, ic) := by
  simp [adjustCounts]

/-- C6: in every reachable session state (direction and mode fixed, answers
frozen once checked, distinct phrase ids), re-running `check()` on a card
whose stored result is already checked leaves the whole state unchanged:
the frozen answer reproduces the same comparison, so the counter-flip
branch is not taken and every stored field is rewritten to itself. -/
theorem recheck_frozen_card_noop (cfg : SessionConfig) (tape : Nat → Nat)
    (phrases : List LearnPhraseDTO) (ops : List SessionOp)
    (hne : phrases ≠ []) (hids : (phrases.map LearnPhraseDTO.id).Nodup)
    (p : LearnPhraseDTO) (r : CardResultState)
    (hp : currentPhraseOf (applySessionOps ops (startSession cfg tape phrases)) = some p)
    (hr : List.lookup p.id
      (applySessionOps ops (startSession cfg tape phrases)).answers = some r)
    (hchecked : r.isChecked = true) :
    handleCheckAnswer (applySessionOps ops (startSession cfg tape phrases)) =
      applySessionOps ops (startSession cfg tape phrases) := by
  have hInv := inv_ops ops _ (inv_start cfg tape phrases hne hids)
  obtain ⟨h1, h2, h3, h4, h5, h6, h7, h8⟩ := hInv
  set st := applySessionOps ops (startSession cfg tape phrases) with hst
  have hpmem : p ∈ st.currentRound := List.getElem?_mem (currentPhraseOf_getElem hp)
  have hcoh := h8 p.id r (lookup_mem hr) hchecked p hpmem rfl
  obtain ⟨hc1, hc2, hc3, hc4⟩ := hcoh
  unfold handleCheckAnswer
  rw [hp]
  dsimp only
  rw [hr]
  cases heff : getEffectiveInputMode st.answerInputMode p st.direction with
  | text =>
    have hcc : cardComparison st p r =
        compareAnswers r.userAnswer (getCorrectAnswer p st.direction) st.useContainsMode := by
      unfold cardComparison
      rw [heff]
    rw [hcc] at hc1 hc2
    simp only [heff, Option.map_some', Option.getD_some, Option.some_bind, hchecked, hc1]
    rw [adjustCounts_noflip]
    have hentry :
        (⟨true, some (compareAnswers r.userAnswer (getCorrectAnswer p st.direction)
            st.useContainsMode).isCorrect,
          some (compareAnswers r.userAnswer (getCorrectAnswer p st.direction)
            st.useContainsMode),
          r.userAnswer, getCorrectAnswer p st.direction, r.selectedTokens⟩ :
          CardResultState) = r := by
      obtain ⟨rc, ric, rbr, rua, rca, rst⟩ := r
      simp only at hchecked hc1 hc2 hc4 ⊢
      rw [hchecked, hc1, hc2, hc4]
    rw [hentry]
    rw [setRecord_self_id h4 hr, ← h7]
  | word_bank =>
    have hcc : cardComparison st p r =
        compareWordBankAnswer (r.selectedTokens.getD [])
          (getCorrectAnswer p st.direction) := by
      unfold cardComparison
      rw [heff]
    rw [hcc] at hc1 hc2
    have hc3' : r.userAnswer = joinSpace (r.selectedTokens.getD []) := hc3 heff
    simp only [heff, Option.map_some', Option.getD_some, Option.some_bind, hchecked, hc1]
    rw [adjustCounts_noflip]
    have hentry :
        (⟨true, some (compareWordBankAnswer (r.selectedTokens.getD [])
            (getCorrectAnswer p st.direction)).isCorrect,
          some (compareWordBankAnswer (r.selectedTokens.getD [])
            (getCorrectAnswer p st.direction)),
          joinSpace (r.selectedTokens.getD []), getCorrectAnswer p st.direction,
          r.selectedTokens⟩ : CardResultState) = r := by
      obtain ⟨rc, ric, rbr, rua, rca, rst⟩ := r
      simp only at hchecked hc1 hc2 hc3' hc4 ⊢
      rw [hchecked, hc1, hc2, hc3', hc4]
    rw [hentry]
    rw [setRecord_self_id h4 hr, ← h7]

/-- Concrete session configuration used by the reachability witnesses. -/
def sessionCfgW : SessionConfig := ⟨.en_to_pl, false, false, .text⟩

/-- Concrete one-phrase manifest used by the reachability witnesses. -/
def phrasesW : List LearnPhraseDTO := [⟨1, "cat".toList, "kot".toList⟩]

/-- Concrete (constant) random tape used by the reachability witnesses. -/
def tapeW : Nat → Nat := fun _ => 0

theorem round_invariant_witness :
    ((applySessionOps [] (startSession sessionCfgW tapeW phrasesW)).correctCount +
        (applySessionOps [] (startSession sessionCfgW tapeW phrasesW)).incorrectCount ≤
      ((applySessionOps [] (startSession sessionCfgW tapeW phrasesW)).currentIndex : Int) + 1 ∧
      (applySessionOps [] (startSession sessionCfgW tapeW phrasesW)).currentIndex + 1 ≤
        (applySessionOps [] (startSession sessionCfgW tapeW phrasesW)).currentRound.length) ∧
    (∀ p : LearnPhraseDTO,
      p ∈ (applySessionOps [] (startSession sessionCfgW tapeW phrasesW)).incorrectPhrases ↔
      p ∈ (applySessionOps [] (startSession sessionCfgW tapeW phrasesW)).currentRound ∧
        ∃ r, List.lookup p.id
            (applySessionOps [] (startSession sessionCfgW tapeW phrasesW)).answers =
              some r ∧ r.isChecked = true ∧ r.isCorrect = some false) :=
  round_invariant sessionCfgW tapeW phrasesW [] (by decide) (by decide)

/-- The operation list of the frozen-card witness: type the correct answer,
check it once. -/
def opsW : List SessionOp := [.setText "kot".toList, .check]

/-- The current phrase of the frozen-card witness run. -/
def phraseW : LearnPhraseDTO := ⟨1, "cat".toList, "kot".toList⟩

/-- The stored (frozen, checked, correct) card result of the witness run. -/
def cardResultW : CardResultState :=
  ⟨true, some true, some ⟨true, "kot".toList, "kot".toList⟩, "kot".toList, "kot".toList, none⟩

theorem recheck_frozen_card_noop_witness :
    handleCheckAnswer (applySessionOps opsW (startSession sessionCfgW tapeW phrasesW)) =
      applySessionOps opsW (startSession sessionCfgW tapeW phrasesW) :=
  recheck_frozen_card_noop sessionCfgW tapeW phrasesW opsW (by decide) (by decide)
    phraseW cardResultW (by decide) (by decide) (by decide)
